import Mathlib

set_option maxRecDepth 40000

/-!
Verification development for the markdown chunking engine of
`faq-mcp/docs/handle_raw_data.py` (class `FAQProcessor`).

The Python code is embedded shallowly: strings are `List Char` (wrapped in
`String` at the interface), Python `re` patterns are embedded as dedicated
scanners that implement the exact leftmost / greedy / lazy backtracking
semantics of the concrete patterns used by the source, and the
`while`-loop of `chunk_by_fixed_length` is embedded with an explicit fuel
parameter so that its (non-)termination can be reasoned about: `none`
means the loop has not terminated within `fuel` iterations.
-/

/-- Python's `\s` (ASCII range), as used by `str.split()`, `str.strip()` and `re`. -/
def pyIsSpace (c : Char) : Bool :=
  c = ' ' || c = '\t' || c = '\n' || c = '\r' || c = '\x0b' || c = '\x0c'

/-- Python's `\d` (ASCII digits). -/
def isDigitCh (c : Char) : Bool := '0' ≤ c && c ≤ '9'

/-- Python `str.lstrip()`. -/
def pyLstrip (l : List Char) : List Char := l.dropWhile pyIsSpace

/-- Python `str.rstrip()`. -/
def pyRstrip (l : List Char) : List Char := (l.reverse.dropWhile pyIsSpace).reverse

/-- Python `str.strip()`. -/
def pyStrip (l : List Char) : List Char := pyRstrip (pyLstrip l)

/-- Helper for `pySplitWs`: accumulates the current word (reversed). -/
def wordsAux : List Char → List Char → List (List Char)
  | [], acc => if acc.isEmpty then [] else [acc.reverse]
  | c :: rest, acc =>
    if pyIsSpace c then
      if acc.isEmpty then wordsAux rest [] else acc.reverse :: wordsAux rest []
    else wordsAux rest (c :: acc)

/-- Python `str.split()` with no argument: split on whitespace runs, no empty tokens. -/
def pySplitWs (l : List Char) : List (List Char) := wordsAux l []

/-- Python `' '.join(words)`. -/
def joinSpace (ws : List (List Char)) : List Char := List.intercalate [' '] ws

/-- `startsWithL needle l`: `l` starts with `needle`. -/
def startsWithL : List Char → List Char → Bool
  | [], _ => true
  | _ :: _, [] => false
  | a :: as, b :: bs => a = b && startsWithL as bs

/-- Python `needle in haystack` (substring test). -/
def containsSub (needle : List Char) : List Char → Bool
  | [] => startsWithL needle []
  | l@(_ :: rest) => startsWithL needle l || containsSub needle rest

/-- Index of the first occurrence of `needle` as a substring, if any. -/
def findIdxSub (needle : List Char) : List Char → Option Nat
  | [] => if startsWithL needle [] then some 0 else none
  | l@(_ :: rest) =>
    if startsWithL needle l then some 0
    else (findIdxSub needle rest).map (· + 1)

/-- Index of the last `'\n'` in a list, if any. -/
def lastNl : List Char → Option Nat
  | [] => none
  | c :: rest =>
    match lastNl rest with
    | some j => some (j + 1)
    | none => if c = '\n' then some 0 else none

/-- Clamp a Python slice index to `[0, n]`, with negative indices counted from the end. -/
def pyIdx (n : Nat) (a : Int) : Nat :=
  if a < 0 then ((n : Int) + a).toNat else min a.toNat n

/-- Python list slice `l[a:b]`. -/
def pySlice {α : Type} (l : List α) (a b : Int) : List α :=
  (l.take (pyIdx l.length b)).drop (pyIdx l.length a)

/-- The lazy group `([\s\S]+?)(?=X|\Z)` of the source's section and Q&A regexes:
consume at least one character, then as few further characters as possible
until the remaining suffix satisfies `stop` (the lookahead, with end-of-input
included in `stop`). Returns the consumed body and the remaining suffix. -/
def lazyBody (stop : List Char → Bool) : List Char → Option (List Char × List Char)
  | [] => none
  | c :: rest =>
    if stop rest then some ([c], rest)
    else
      match lazyBody stop rest with
      | some (b, r) => some (c :: b, r)
      | none => none

/-- Lookahead `(?=##|\Z)`. -/
def stopH2 (l : List Char) : Bool := startsWithL ['#', '#'] l || l.isEmpty

/-- Lookahead `(?=####|\Z)`. -/
def stopH4 (l : List Char) : Bool := startsWithL ['#', '#', '#', '#'] l || l.isEmpty

/-- Backtracking loop of `##\s+([^\n]+)\n([\s\S]+?)(?=##|\Z)` after the literal `##`:
the greedy `\s+` first tries the maximal whitespace run (length `k`), retreating one
character at a time.  For a given `\s+` width the title group `([^\n]+)\n` is forced
(greedily up to the next newline, which must exist), and the body group fails only
when it would be empty, which sends the engine back into `\s+` backtracking.
Returns ((title, body), total number of characters consumed by the match). -/
def sectionWsLoop (rest : List Char) : Nat → Option ((List Char × List Char) × Nat)
  | 0 => none
  | k + 1 =>
    let l' := rest.drop (k + 1)
    let T := l'.takeWhile (fun c => c ≠ '\n')
    if T.isEmpty then sectionWsLoop rest k
    else if T.length < l'.length then
      if (l'.drop (T.length + 1)).isEmpty then sectionWsLoop rest k
      else
        match lazyBody stopH2 (l'.drop (T.length + 1)) with
        | some (b, _) => some ((T, b), 2 + (k + 1) + T.length + 1 + b.length)
        | none => sectionWsLoop rest k
    else sectionWsLoop rest k

/-- Attempt to match the section pattern `##\s+([^\n]+)\n([\s\S]+?)(?=##|\Z)`
at the start of the input (as `re` does at each scan position). -/
def matchSectionAtN : List Char → Option ((List Char × List Char) × Nat)
  | '#' :: '#' :: rest => sectionWsLoop rest (rest.takeWhile pyIsSpace).length
  | _ => none

/-- Attempt to match the primary Q&A pattern `####\s+(Q\d+:.+?)\n([\s\S]+?)(?=####|\Z)`
at the start of the input.  Here `\s+` backtracking is vacuous: any shorter
whitespace run leaves a whitespace character where the literal `Q` is required. -/
def matchQaAtN : List Char → Option ((List Char × List Char) × Nat)
  | '#' :: '#' :: '#' :: '#' :: rest =>
    let wlen := (rest.takeWhile pyIsSpace).length
    if wlen = 0 then none
    else
      match rest.drop wlen with
      | 'Q' :: l2 =>
        let dlen := (l2.takeWhile isDigitCh).length
        if dlen = 0 then none
        else
          match l2.drop dlen with
          | ':' :: l3 =>
            let R := l3.takeWhile (fun c => c ≠ '\n')
            if R.isEmpty then none
            else if R.length < l3.length then
              if (l3.drop (R.length + 1)).isEmpty then none
              else
                match lazyBody stopH4 (l3.drop (R.length + 1)) with
                | some (b, _) =>
                  some (('Q' :: (l2.takeWhile isDigitCh ++ ':' :: R), b),
                        4 + wlen + 1 + dlen + 1 + R.length + 1 + b.length)
                | none => none
            else none
          | _ => none
      | _ => none
  | _ => none

/-- Backtracking loop of the fallback pattern `####\s+([^#\n]+?)\n([\s\S]+?)(?=####|\Z)`
after the literal `####`: greedy `\s+` from maximal width down; the lazy question
group `([^#\n]+?)\n` must reach a newline before any `#`. -/
def altWsLoop (rest : List Char) : Nat → Option ((List Char × List Char) × Nat)
  | 0 => none
  | k + 1 =>
    let l' := rest.drop (k + 1)
    let T := l'.takeWhile (fun c => c ≠ '#' && c ≠ '\n')
    if T.isEmpty then altWsLoop rest k
    else
      match l'.drop T.length with
      | '\n' :: after =>
        if after.isEmpty then altWsLoop rest k
        else
          match lazyBody stopH4 after with
          | some (b, _) => some ((T, b), 4 + (k + 1) + T.length + 1 + b.length)
          | none => altWsLoop rest k
      | _ => altWsLoop rest k

/-- Attempt to match the fallback Q&A pattern at the start of the input. -/
def matchAltAtN : List Char → Option ((List Char × List Char) × Nat)
  | '#' :: '#' :: '#' :: '#' :: rest => altWsLoop rest (rest.takeWhile pyIsSpace).length
  | _ => none

/-- `re.finditer` scanning: try the matcher at each position from left to right;
on a match, emit its groups and resume after the matched span (which is always
non-empty for the patterns above); otherwise advance one character.  `fuel`
bounds the number of scan steps; every step consumes at least one character,
so `length + 1` fuel always suffices. -/
def scanAux (m : List Char → Option ((List Char × List Char) × Nat)) :
    Nat → List Char → List (List Char × List Char)
  | 0, _ => []
  | _ + 1, [] => []
  | fuel + 1, c :: rest =>
    match m (c :: rest) with
    | some (p, n) => p :: scanAux m fuel ((c :: rest).drop n)
    | none => scanAux m fuel rest

/-- All matches of the section pattern, in order (`re.finditer(section_pattern, ...)`). -/
def findSections (l : List Char) : List (List Char × List Char) :=
  scanAux matchSectionAtN (l.length + 1) l

/-- All matches of the primary Q&A pattern, in order. -/
def findQaPrimary (l : List Char) : List (List Char × List Char) :=
  scanAux matchQaAtN (l.length + 1) l

/-- All matches of the fallback Q&A pattern, in order. -/
def findQaAlt (l : List Char) : List (List Char × List Char) :=
  scanAux matchAltAtN (l.length + 1) l

/-- Prepend a character to the first piece of a split result. -/
def consPiece (c : Char) : List (List Char) → List (List Char)
  | [] => [[c]]
  | p :: ps => (c :: p) :: ps

/-- `re.split(r'\n\s*\n', text)`: a separator starts at a newline whose following
whitespace run contains another newline; greedy `\s*` followed by the final `\n`
consumes up to the last newline of that run. -/
def reSplitAux : Nat → List Char → List (List Char)
  | 0, _ => [[]]
  | _ + 1, [] => [[]]
  | fuel + 1, c :: rest =>
    if c = '\n' then
      match lastNl (rest.takeWhile pyIsSpace) with
      | some j => [] :: reSplitAux fuel (rest.drop (j + 1))
      | none => consPiece c (reSplitAux fuel rest)
    else consPiece c (reSplitAux fuel rest)

/-- `re.split(r'\n\s*\n', text)` with sufficient fuel. -/
def reSplitBlank (l : List Char) : List (List Char) := reSplitAux (l.length + 1) l

/-- Modelled from the claim's words (spec 4.4), for comparison with `reSplitBlank`:
split on every maximal run of whitespace that contains at least one blank line,
i.e. at least two newlines. -/
def specSplitAux : Nat → List Char → List (List Char)
  | 0, _ => [[]]
  | _ + 1, [] => [[]]
  | fuel + 1, c :: rest =>
    if pyIsSpace c && 2 ≤ ((c :: rest).takeWhile pyIsSpace).count '\n' then
      [] :: specSplitAux fuel ((c :: rest).dropWhile pyIsSpace)
    else consPiece c (specSplitAux fuel rest)

/-- The claim-side paragraph splitter with sufficient fuel. -/
def specSplitBlank (l : List Char) : List (List Char) := specSplitAux (l.length + 1) l

/-- Scan for the end `-->` of an HTML comment; returns the suffix after it. -/
def findCloseCmt : Nat → List Char → Option (List Char)
  | 0, _ => none
  | _ + 1, [] => none
  | fuel + 1, l@(_ :: rest) =>
    if startsWithL ['-', '-', '>'] l then some (l.drop 3)
    else findCloseCmt fuel rest

/-- `re.sub(r'<!--.*?-->', '', content, flags=re.DOTALL)`: each `<!--` that has a
closing `-->` is removed together with the (lazily minimal) text in between. -/
def removeCommentsAux : Nat → List Char → List Char
  | 0, l => l
  | _ + 1, [] => []
  | fuel + 1, c :: rest =>
    if startsWithL ['<', '!', '-', '-'] (c :: rest) then
      match findCloseCmt (rest.length + 1) ((c :: rest).drop 4) with
      | some rest' => removeCommentsAux fuel rest'
      | none => c :: removeCommentsAux fuel rest
    else c :: removeCommentsAux fuel rest

/-- `re.sub(r'^---\n[\s\S]*?\n---\n', '', content)`: a front-matter block at the
very start of the document (the pattern is anchored, so it can only replace once). -/
def removeFrontMatter (l : List Char) : List Char :=
  if startsWithL ['-', '-', '-', '\n'] l then
    match findIdxSub ['\n', '-', '-', '-', '\n'] (l.drop 4) with
    | some i => l.drop (4 + i + 5)
    | none => l
  else l

/-- `re.sub(r'\n---\n[\s\S]*$', '', content)`: truncate at the first `\n---\n`. -/
def stripFooter (l : List Char) : List Char :=
  match findIdxSub ['\n', '-', '-', '-', '\n'] l with
  | some i => l.take i
  | none => l

/-- `FAQProcessor._clean_markdown`. -/
def _clean_markdown (content : List Char) : List Char :=
  stripFooter (removeFrontMatter (removeCommentsAux (content.length + 1) content))

/-- A chunk record: either a Q&A pair or a plain-text chunk (paragraph / fixed length).
The `metadata` dict is an insertion-ordered association list. -/
inductive Chunk where
  | qa (question answer sectionTitle : String) (metadata : List (String × String))
  | txt (text : String) (metadata : List (String × String)) (chunkType : String)
deriving DecidableEq, Repr

/-- Dictionary lookup in a chunk's metadata. -/
def metaLookup (k : String) : List (String × String) → Option String
  | [] => none
  | (a, b) :: t => if a = k then some b else metaLookup k t

/-- The metadata dict of a chunk. -/
def Chunk.mdata : Chunk → List (String × String)
  | .qa _ _ _ md => md
  | .txt _ md _ => md

/-- Whether a chunk is a Q&A pair chunk. -/
def Chunk.isQaPair : Chunk → Bool
  | .qa .. => true
  | .txt .. => false

/-- The chunk's content is non-empty after trimming (both question and answer
text for a Q&A chunk, the text for a paragraph / fixed-length chunk). -/
def Chunk.trimNonempty : Chunk → Prop
  | .qa q a _ _ => pyStrip q.data ≠ [] ∧ pyStrip a.data ≠ []
  | .txt t _ _ => pyStrip t.data ≠ []

/-- `re.sub(r'^Q\d+:\s*', '', question)`: drop a leading `Q<digits>:` plus
following whitespace, if present. -/
def stripQNum (q : List Char) : List Char :=
  match q with
  | 'Q' :: l2 =>
    let dlen := (l2.takeWhile isDigitCh).length
    if dlen = 0 then q
    else
      match l2.drop dlen with
      | ':' :: l3 => l3.dropWhile pyIsSpace
      | _ => q
  | _ => q

/-- `FAQProcessor.chunk_by_paragraph`. -/
def chunk_by_paragraph (text : String) (metadata : List (String × String)) : List Chunk :=
  (reSplitBlank text.data).filterMap fun para =>
    if (pyStrip para).isEmpty then none
    else some (.txt ⟨pyStrip para⟩ metadata "paragraph")

/-- The `while i < len(words)` loop of `FAQProcessor.chunk_by_fixed_length`,
with explicit fuel: `none` means the loop has not terminated within `fuel`
iterations (the Python loop would still be running). -/
def fixedLoop (words : List (List Char)) (max_length overlap : Int)
    (metadata : List (String × String)) :
    Nat → Int → List Chunk → Option (List Chunk)
  | 0, _, _ => none
  | fuel + 1, i, chunks =>
    if i < (words.length : Int) then
      let e := min (i + max_length) (words.length : Int)
      let chunks' := chunks ++ [.txt ⟨joinSpace (pySlice words i e)⟩ metadata "fixed_length"]
      let i' := i + (max_length - overlap)
      if (words.length : Int) ≤ i' then some chunks'
      else fixedLoop words max_length overlap metadata fuel i' chunks'
    else some chunks

/-- `FAQProcessor.chunk_by_fixed_length`. -/
def chunk_by_fixed_length (text : String) (max_length overlap : Int)
    (metadata : List (String × String)) (fuel : Nat) : Option (List Chunk) :=
  fixedLoop (pySplitWs text.data) max_length overlap metadata fuel 0 []

/-- Build one Q&A chunk from a regex match (groups 1 and 2), as in the
`for match in qa_pairs` loop of `extract_qa_pairs`. -/
def mkQaChunk (sectionTitle : String) (p : List Char × List Char) : Chunk :=
  .qa ⟨stripQNum (pyStrip p.1)⟩ ⟨pyStrip p.2⟩ sectionTitle
    [("source", "FAQ.md"), ("section", sectionTitle), ("type", "qa_pair")]

/-- The per-section body of the `for section_info in sections` loop of
`extract_qa_pairs`: primary pattern, fallback pattern if it had no match,
paragraph chunking if neither matched. -/
def processSection (sectionTitle : String) (sectionContent : String) : List Chunk :=
  let prim := findQaPrimary sectionContent.data
  let qa_pairs := if prim.isEmpty then findQaAlt sectionContent.data else prim
  qa_pairs.map (mkQaChunk sectionTitle) ++
    (if qa_pairs.isEmpty then
      chunk_by_paragraph sectionContent
        [("source", "FAQ.md"), ("section", sectionTitle), ("type", "paragraph")]
    else [])

/-- A section produced by `_split_by_sections`. -/
structure Sec where
  title : String
  content : String
deriving DecidableEq, Repr

/-- `FAQProcessor._split_by_sections`. -/
def _split_by_sections (content : String) : List Sec :=
  (findSections content.data).filterMap fun p =>
    let t := pyStrip p.1
    if containsSub "Table of Contents".data t then none
    else some ⟨⟨t⟩, ⟨pyStrip p.2⟩⟩

/-- `FAQProcessor.extract_qa_pairs`. -/
def extract_qa_pairs (content : String) : List Chunk :=
  (_split_by_sections content).flatMap fun s => processSection s.title s.content

/-- `Path(file_path).name`. -/
def pathName (p : String) : String :=
  ⟨(p.data.reverse.takeWhile (fun c => c ≠ '/')).reverse⟩

/-- `FAQProcessor.process_markdown_file`, with the file's text supplied directly
(file reading is an external collaborator).  The `ValueError` of the unknown
strategy branch is an `Except.error` carrying the formatted message; a
non-terminating fixed-length loop surfaces as the distinguished error
`"nonterminating"` (no value is ever returned by the Python code then). -/
def process_markdown_file (content : String) (file_path : String)
    (chunking_strategy : String) (max_length overlap : Int) (fuel : Nat) :
    Except String (List Chunk) :=
  let cleaned : String := ⟨_clean_markdown content.data⟩
  if chunking_strategy = "qa_pair" then .ok (extract_qa_pairs cleaned)
  else if chunking_strategy = "paragraph" then
    .ok (chunk_by_paragraph cleaned [("source", pathName file_path)])
  else if chunking_strategy = "fixed_length" then
    match chunk_by_fixed_length cleaned max_length overlap
        [("source", pathName file_path)] fuel with
    | some cs => .ok cs
    | none => .error "nonterminating"
  else .error ("Unsupported chunking strategy: " ++ chunking_strategy)

/-- Number of words of `a` that also occur as words of `b` (used to express
"consecutive chunks share exactly N words" on concrete chunk texts). -/
def countCommonWords (a b : String) : Nat :=
  ((pySplitWs a.data).filter (fun w => (pySplitWs b.data).contains w)).length

/-- A well-formed heading text for the structured document families: non-empty,
single-line, free of `#`, not starting with whitespace. -/
def wfTitle (t : List Char) : Bool :=
  !t.isEmpty && t.all (fun c => c ≠ '\n' && c ≠ '#') && !pyIsSpace (t.headD 'x')

/-- A well-formed body for the structured document families: non-empty and free of `#`. -/
def wfBody (b : List Char) : Bool := !b.isEmpty && b.all (fun c => c ≠ '#')

/-- A markdown heading block `"#"*h ++ " " ++ t ++ "\n" ++ b`. -/
def secBlock (h : Nat) (t b : List Char) : List Char :=
  List.replicate h '#' ++ ' ' :: (t ++ '\n' :: b)

/-- A document made of consecutive heading blocks. -/
def mkSecDoc (blocks : List (Nat × List Char × List Char)) : List Char :=
  (blocks.map fun x => secBlock x.1 x.2.1 x.2.2).flatten

/-- A Q&A block `#### q\n` followed by its answer text. -/
def qaBlock (q a : List Char) : List Char :=
  '#' :: '#' :: '#' :: '#' :: ' ' :: (q ++ '\n' :: a)

/-- A section content made of consecutive Q&A blocks. -/
def mkQaDoc (blocks : List (List Char × List Char)) : List Char :=
  (blocks.map fun x => qaBlock x.1 x.2).flatten

/-- Closed form of the fixed-length chunker for a valid configuration
`overlap < max_length` (in words): windows starting at `0, s, 2s, ...` with
`s = max_length - overlap`, each of up to `max_length` words. -/
def fixedChunkList (words : List (List Char)) (M O : Nat)
    (md : List (String × String)) : List Chunk :=
  (List.range ((words.length + (M - O) - 1) / (M - O))).map fun k =>
    .txt ⟨joinSpace ((words.take (min (k * (M - O) + M) words.length)).drop (k * (M - O)))⟩
      md "fixed_length"

/-- The word window of the `k`-th fixed-length chunk, for `overlap < max_length`. -/
def windowWordsAt (words : List (List Char)) (M O k : Nat) : List (List Char) :=
  (words.take (min (k * (M - O) + M) words.length)).drop (k * (M - O))

/-- Trim every piece and keep the non-empty ones (the common post-processing of
both paragraph splitters). -/
def stripFilter (ps : List (List Char)) : List (List Char) :=
  (ps.map pyStrip).filter (fun x => !x.isEmpty)

/-- Prepend pending characters to the first piece of a split result. -/
def prependPiece (a : List Char) : List (List Char) → List (List Char)
  | [] => [a]
  | h :: t => (a ++ h) :: t

/-- The raw text carried by a chunk. -/
def Chunk.rawText : Chunk → List Char
  | .qa q a _ _ => q.data ++ a.data
  | .txt t _ _ => t.data

/-! ### Helper lemmas -/

theorem fixedLoop_nonpos_none (words : List (List Char)) (M O : Int)
    (md : List (String × String)) (hw : words ≠ []) (hMO : M ≤ O) :
    ∀ (fuel : Nat) (i : Int) (acc : List Chunk), i ≤ 0 →
      fixedLoop words M O md fuel i acc = none := by
  intro fuel
  induction fuel with
  | zero => intro i acc _; rfl
  | succ n ih =>
    intro i acc h
    have hlen : (0 : Int) < words.length := by
      have := List.length_pos.mpr hw
      exact_mod_cast this
    simp only [fixedLoop]
    rw [if_pos (lt_of_le_of_lt h hlen)]
    rw [if_neg (by omega : ¬ ((words.length : Int) ≤ i + (M - O)))]
    exact ih _ _ (by omega)

theorem mem_chunk_by_paragraph {c : Chunk} {text : String} {md : List (String × String)}
    (h : c ∈ chunk_by_paragraph text md) :
    ∃ p, (pyStrip p).isEmpty = false ∧ c = .txt ⟨pyStrip p⟩ md "paragraph" := by
  unfold chunk_by_paragraph at h
  rw [List.mem_filterMap] at h
  obtain ⟨p, _, hp⟩ := h
  by_cases he : (pyStrip p).isEmpty
  · rw [if_pos he] at hp; cases hp
  · rw [if_neg he] at hp
    exact ⟨p, by simpa using he, (Option.some_inj.mp hp).symm⟩

/-! ### C1 -/

/-- C1: the claim states that `chunk_by_fixed_length` with
`overlapTokens >= maxLength` rejects the configuration or terminates after at
most one iteration, never looping forever.  The code has no such guard: with
`max_length = overlap = 2` on the three-word input `"a b c"` the start index
never advances past 0, so the loop never terminates, whatever the fuel. -/
theorem C1_overlap_ge_max_loops_forever (fuel : Nat) :
    chunk_by_fixed_length "a b c" 2 2 [] fuel = none := by
  unfold chunk_by_fixed_length
  exact fixedLoop_nonpos_none _ 2 2 [] (by decide) (by omega) fuel 0 [] le_rfl

/-! ### C3 -/

/-- C3: the claim states that on a well-formed `## Section` / `#### Q<digits>:`
document, Q&A extraction returns one `qa_pair` chunk per `####` heading.  In
fact the section pattern `##\s+` also matches inside every `####` heading, so
each Q&A heading is split off as its own "section", no section content ever
contains `####`, and the extractor returns only paragraph chunks. -/
theorem C3_wellformed_doc_yields_no_qa_chunks :
    extract_qa_pairs "## Section\nIntro\n#### Q1: What is X?\nX is Y.\n#### Q2: How?\nDo Z." =
      [Chunk.txt "Intro" [("source", "FAQ.md"), ("section", "Section"), ("type", "paragraph")] "paragraph",
       Chunk.txt "X is Y." [("source", "FAQ.md"), ("section", "Q1: What is X?"), ("type", "paragraph")] "paragraph",
       Chunk.txt "Do Z." [("source", "FAQ.md"), ("section", "Q2: How?"), ("type", "paragraph")] "paragraph"] ∧
    ∀ c ∈ extract_qa_pairs "## Section\nIntro\n#### Q1: What is X?\nX is Y.\n#### Q2: How?\nDo Z.",
      c.isQaPair = false := by
  refine ⟨by decide, ?_⟩
  intro c hc
  rw [(by decide :
    extract_qa_pairs "## Section\nIntro\n#### Q1: What is X?\nX is Y.\n#### Q2: How?\nDo Z." =
      [Chunk.txt "Intro" [("source", "FAQ.md"), ("section", "Section"), ("type", "paragraph")] "paragraph",
       Chunk.txt "X is Y." [("source", "FAQ.md"), ("section", "Q1: What is X?"), ("type", "paragraph")] "paragraph",
       Chunk.txt "Do Z." [("source", "FAQ.md"), ("section", "Q2: How?"), ("type", "paragraph")] "paragraph"])] at hc
  fin_cases hc <;> rfl

/-! ### C2 counterexample -/

/-- C2 counterexample: the claim states that exactly the lines beginning with
two `#` markers are section boundaries and that a section's content runs to the
next second-level heading.  On `"## A\nx\n### B\ny"` the third-level heading
`### B` also acts as a boundary (the unanchored `##\s+` matches inside it), so
the code produces two sections instead of the single claimed one. -/
theorem C2_counterexample :
    _split_by_sections "## A\nx\n### B\ny" = [⟨"A", "x"⟩, ⟨"B", "y"⟩] ∧
    _split_by_sections "## A\nx\n### B\ny" ≠ [⟨"A", "x\n### B\ny"⟩] := by
  constructor
  · decide
  · decide

/-! ### C4 counterexample -/

/-- C4 counterexample: the claim states the fallback pattern stores the heading
text verbatim (trimmed) as the question.  For the heading `#### Q5:` (matched
by the fallback only, since the primary pattern needs text after the colon) the
code still applies the `Q<digits>:` prefix-stripping substitution, storing `""`
instead of the verbatim `"Q5:"`. -/
theorem C4_counterexample :
    processSection "S" "#### Q5:\nAnswer here" =
      [Chunk.qa "" "Answer here" "S"
        [("source", "FAQ.md"), ("section", "S"), ("type", "qa_pair")]] ∧
    processSection "S" "#### Q5:\nAnswer here" ≠
      [Chunk.qa "Q5:" "Answer here" "S"
        [("source", "FAQ.md"), ("section", "S"), ("type", "qa_pair")]] := by
  constructor
  · decide
  · decide

/-! ### C6 counterexample -/

/-- C6 counterexample: the claim states that consecutive chunks share exactly
`overlapTokens` words, excepting only the final chunk.  With the valid
configuration `maxLength = 4 > overlapTokens = 3` on the three-word input
`"x y z"`, the first chunk is truncated by the end of the input, and the first
two chunks (the second of which is not the final chunk) share only 2 words. -/
theorem C6_counterexample :
    chunk_by_fixed_length "x y z" 4 3 [] 10 =
      some [Chunk.txt "x y z" [] "fixed_length", Chunk.txt "y z" [] "fixed_length",
            Chunk.txt "z" [] "fixed_length"] ∧
    countCommonWords "x y z" "y z" = 2 ∧ (2 : Nat) ≠ 3 := by
  refine ⟨by decide, by decide, by decide⟩

/-! ### C10 counterexample -/

/-- C10 counterexample: the claim states every chunk's metadata carries the
supplied document identifier as `source`, including for the `qa_pair` strategy.
Processing the file `other.md` with strategy `qa_pair` produces a chunk whose
`source` is the hard-coded `"FAQ.md"`, not `"other.md"`. -/
theorem C10_counterexample :
    process_markdown_file "## A\nhello" "other.md" "qa_pair" 500 50 99 =
      .ok [Chunk.txt "hello"
        [("source", "FAQ.md"), ("section", "A"), ("type", "paragraph")] "paragraph"] ∧
    metaLookup "source"
      (Chunk.txt "hello"
        [("source", "FAQ.md"), ("section", "A"), ("type", "paragraph")] "paragraph").mdata =
      some "FAQ.md" ∧
    pathName "other.md" = "other.md" ∧ ("FAQ.md" : String) ≠ "other.md" := by
  refine ⟨rfl, by decide, by decide, by decide⟩

/-! ### C8 -/

/-- C8: for every strategy name other than `qa_pair`, `paragraph` and
`fixed_length`, processing fails with the `ValueError`-style error message
identifying the invalid name, and no chunks are produced. -/
theorem C8_unknown_strategy_fails (content file_path strategy : String)
    (M O : Int) (fuel : Nat)
    (h1 : strategy ≠ "qa_pair") (h2 : strategy ≠ "paragraph")
    (h3 : strategy ≠ "fixed_length") :
    process_markdown_file content file_path strategy M O fuel =
      .error ("Unsupported chunking strategy: " ++ strategy) := by
  simp only [process_markdown_file]
  rw [if_neg h1, if_neg h2, if_neg h3]

/-- Witness for C8 at the concrete strategy name `"sentence"`. -/
theorem C8_unknown_strategy_fails_witness :
    process_markdown_file "x" "f.md" "sentence" 500 50 9 =
      .error ("Unsupported chunking strategy: " ++ "sentence") :=
  C8_unknown_strategy_fails "x" "f.md" "sentence" 500 50 9
    (by decide) (by decide) (by decide)

/-! ### C5 -/

/-- C5: for every section on which neither the primary nor the fallback Q&A
pattern has a match, the extractor produces zero `qa_pair` chunks and instead
paragraph-chunks the section content, with metadata `type = "paragraph"` and
the same `source` / `section` values. -/
theorem C5_no_match_falls_back_to_paragraphs (title content : String)
    (h1 : findQaPrimary content.data = []) (h2 : findQaAlt content.data = []) :
    processSection title content =
      chunk_by_paragraph content
        [("source", "FAQ.md"), ("section", title), ("type", "paragraph")] ∧
    ∀ c ∈ processSection title content,
      c.isQaPair = false ∧
      metaLookup "type" c.mdata = some "paragraph" ∧
      metaLookup "source" c.mdata = some "FAQ.md" ∧
      metaLookup "section" c.mdata = some title := by
  have hmain : processSection title content =
      chunk_by_paragraph content
        [("source", "FAQ.md"), ("section", title), ("type", "paragraph")] := by
    unfold processSection
    rw [h1]
    simp only [List.isEmpty_nil, if_true]
    rw [h2]
    simp
  refine ⟨hmain, ?_⟩
  intro c hc
  rw [hmain] at hc
  obtain ⟨p, -, hcp⟩ := mem_chunk_by_paragraph hc
  subst hcp
  refine ⟨rfl, ?_, ?_, ?_⟩ <;> simp [Chunk.mdata, metaLookup]

/-- Witness for C5 on the section `("T", "hello world")`, which matches neither
Q&A pattern. -/
theorem C5_no_match_falls_back_to_paragraphs_witness :
    processSection "T" "hello world" =
      chunk_by_paragraph "hello world"
        [("source", "FAQ.md"), ("section", "T"), ("type", "paragraph")] :=
  (C5_no_match_falls_back_to_paragraphs "T" "hello world" (by decide) (by decide)).1

/-! ### Metadata invariants (towards C10 amended) -/

theorem fixedLoop_mdata (words : List (List Char)) (M O : Int)
    (md : List (String × String)) :
    ∀ (fuel : Nat) (i : Int) (acc res : List Chunk),
      fixedLoop words M O md fuel i acc = some res →
      ∀ c ∈ res, c ∈ acc ∨ ∃ t, c = Chunk.txt t md "fixed_length" := by
  intro fuel
  induction fuel with
  | zero => intro i acc res h; cases h
  | succ n ih =>
    intro i acc res h c hc
    simp only [fixedLoop] at h
    by_cases h1 : i < (words.length : Int)
    · rw [if_pos h1] at h
      by_cases h2 : (words.length : Int) ≤ i + (M - O)
      · rw [if_pos h2] at h
        obtain rfl := Option.some_inj.mp h
        rcases List.mem_append.mp hc with hm | hm
        · exact .inl hm
        · exact .inr ⟨_, (List.mem_singleton.mp hm)⟩
      · rw [if_neg h2] at h
        rcases ih _ _ _ h c hc with hm | hm
        · rcases List.mem_append.mp hm with hm' | hm'
          · exact .inl hm'
          · exact .inr ⟨_, (List.mem_singleton.mp hm')⟩
        · exact .inr hm
    · rw [if_neg h1] at h
      obtain rfl := Option.some_inj.mp h
      exact .inl hc

theorem extract_qa_pairs_source (content : String) :
    ∀ c ∈ extract_qa_pairs content, metaLookup "source" c.mdata = some "FAQ.md" := by
  intro c hc
  unfold extract_qa_pairs at hc
  rw [List.mem_flatMap] at hc
  obtain ⟨s, -, hcs⟩ := hc
  unfold processSection at hcs
  rcases List.mem_append.mp hcs with hm | hm
  · obtain ⟨p, -, hp⟩ := List.mem_map.mp hm
    subst hp
    simp [mkQaChunk, Chunk.mdata, metaLookup]
  · by_cases hq : (if (findQaPrimary s.content.data).isEmpty then findQaAlt s.content.data
        else findQaPrimary s.content.data).isEmpty
    · rw [if_pos hq] at hm
      obtain ⟨p, -, hcp⟩ := mem_chunk_by_paragraph hm
      subst hcp
      simp [Chunk.mdata, metaLookup]
    · rw [if_neg hq] at hm
      cases hm

/-- C10 (amended): every produced chunk's metadata contains a `source` key, but
its value is the supplied document's base name only for the `paragraph` and
`fixed_length` strategies; for `qa_pair` (including its paragraph fallback) it
is the hard-coded constant `"FAQ.md"`, regardless of the supplied identifier. -/
theorem C10_amended_source_key (content file_path strategy : String) (M O : Int)
    (fuel : Nat) (chunks : List Chunk)
    (h : process_markdown_file content file_path strategy M O fuel = .ok chunks) :
    ∀ c ∈ chunks, metaLookup "source" c.mdata =
      some (if strategy = "qa_pair" then "FAQ.md" else pathName file_path) := by
  intro c hc
  simp only [process_markdown_file] at h
  by_cases h1 : strategy = "qa_pair"
  · rw [if_pos h1] at h
    obtain rfl := (Except.ok.injEq _ _).mp h
    rw [if_pos h1]
    exact extract_qa_pairs_source _ c hc
  · rw [if_neg h1] at h
    rw [if_neg h1]
    by_cases h2 : strategy = "paragraph"
    · rw [if_pos h2] at h
      obtain rfl := (Except.ok.injEq _ _).mp h
      obtain ⟨p, -, hcp⟩ := mem_chunk_by_paragraph hc
      subst hcp
      simp [Chunk.mdata, metaLookup]
    · rw [if_neg h2] at h
      by_cases h3 : strategy = "fixed_length"
      · rw [if_pos h3] at h
        revert h
        cases hcl : chunk_by_fixed_length ⟨_clean_markdown content.data⟩ M O
            [("source", pathName file_path)] fuel with
        | none => intro h; cases h
        | some cs =>
          intro h
          obtain rfl := (Except.ok.injEq _ _).mp h
          rcases fixedLoop_mdata _ M O _ fuel 0 [] cs hcl c hc with hm | ⟨t, hct⟩
          · cases hm
          · subst hct
            simp [Chunk.mdata, metaLookup]
      · rw [if_neg h3] at h
        cases h

/-- Witness for the amended C10 at a concrete `paragraph`-strategy run. -/
theorem C10_amended_source_key_witness :
    metaLookup "source" (Chunk.txt "hello" [("source", "f.md")] "paragraph").mdata =
      some (if "paragraph" = "qa_pair" then "FAQ.md" else pathName "d/f.md") :=
  C10_amended_source_key "hello" "d/f.md" "paragraph" 5 1 9 _ rfl _ (by decide)

/-! ### Fixed-length chunker closed form (towards C6 amended) -/

theorem pySlice_nat {α : Type} (l : List α) (a b : Nat) (hb : b ≤ l.length) :
    pySlice l (a : Int) (b : Int) = (l.take b).drop a := by
  unfold pySlice pyIdx
  rw [if_neg (by omega : ¬ ((b : Int) < 0)), if_neg (by omega : ¬ ((a : Int) < 0))]
  rw [Int.toNat_natCast, Int.toNat_natCast, min_eq_left hb]
  by_cases ha : a ≤ l.length
  · rw [min_eq_left ha]
  · rw [min_eq_right (le_of_not_le ha)]
    rw [List.drop_eq_nil_of_le, List.drop_eq_nil_of_le]
    · simp [List.length_take]; omega
    · simp [List.length_take]

theorem lt_ceil_iff (n s k : Nat) (hs : 0 < s) : k < (n + s - 1) / s ↔ k * s < n := by
  rw [show (k < (n + s - 1) / s) = (k + 1 ≤ (n + s - 1) / s) from rfl]
  rw [Nat.le_div_iff_mul_le hs]
  have h1 : (k + 1) * s = k * s + s := by ring
  rw [h1]
  omega

theorem fixedLoop_closed (w : List (List Char)) (M O : Nat) (hO : O < M)
    (md : List (String × String)) :
    ∀ (fuel k : Nat) (acc res : List Chunk),
      fixedLoop w (M : Int) (O : Int) md fuel ((k * (M - O) : Nat) : Int) acc = some res →
      res = acc ++ (List.range ((w.length + (M - O) - 1) / (M - O) - k)).map
        (fun j => Chunk.txt
          ⟨joinSpace ((w.take (min ((k + j) * (M - O) + M) w.length)).drop ((k + j) * (M - O)))⟩
          md "fixed_length") := by
  intro fuel
  induction fuel with
  | zero => intro k acc res h; cases h
  | succ fl ih =>
    intro k acc res h
    have hs : 0 < M - O := by omega
    have hcast1 : ((k * (M - O) : Nat) : Int) + ((M : Int) - (O : Int)) =
        (((k + 1) * (M - O) : Nat) : Int) := by
      push_cast [Nat.cast_sub (le_of_lt hO)]
      ring
    simp only [fixedLoop] at h
    by_cases c1 : k * (M - O) < w.length
    · rw [if_pos (by exact_mod_cast c1)] at h
      rw [hcast1] at h
      have hmin : min (((k * (M - O) : Nat) : Int) + (M : Int)) ((w.length : Nat) : Int) =
          ((min (k * (M - O) + M) w.length : Nat) : Int) := by
        push_cast
        rfl
      rw [hmin, pySlice_nat w _ _ (min_le_right _ _)] at h
      by_cases c2 : w.length ≤ (k + 1) * (M - O)
      · rw [if_pos (by exact_mod_cast c2)] at h
        obtain rfl := Option.some_inj.mp h
        have hK : (w.length + (M - O) - 1) / (M - O) - k = 1 := by
          have h1 : k < (w.length + (M - O) - 1) / (M - O) := (lt_ceil_iff _ _ _ hs).mpr c1
          have h2 : ¬ (k + 1 < (w.length + (M - O) - 1) / (M - O)) := by
            rw [lt_ceil_iff _ _ _ hs]
            omega
          omega
        rw [hK, List.range_succ_eq_map]
        simp
      · rw [if_neg (by exact_mod_cast c2)] at h
        have hres := ih (k + 1) _ res h
        rw [hres]
        have hK : (w.length + (M - O) - 1) / (M - O) - k =
            ((w.length + (M - O) - 1) / (M - O) - (k + 1)) + 1 := by
          have h1 : k < (w.length + (M - O) - 1) / (M - O) := (lt_ceil_iff _ _ _ hs).mpr c1
          omega
        rw [hK, List.range_succ_eq_map]
        simp only [List.map_cons, List.map_map, List.append_assoc, List.singleton_append,
          Nat.add_zero]
        congr 1
        congr 1
        apply List.map_congr_left
        intro j _
        simp only [Function.comp_apply]
        have hkj : k + Nat.succ j = k + 1 + j := by omega
        rw [hkj]
    · rw [if_neg (by exact_mod_cast c1)] at h
      obtain rfl := Option.some_inj.mp h
      have hK : (w.length + (M - O) - 1) / (M - O) - k = 0 := by
        have h1 : ¬ k < (w.length + (M - O) - 1) / (M - O) := by
          rw [lt_ceil_iff _ _ _ hs]
          exact c1
        omega
      rw [hK]
      simp

/-- C6 (amended): for a valid configuration (`0 ≤ overlapTokens < maxLength`),
fixed-length chunking produces exactly the windows starting at word index 0 and
advancing by `maxLength - overlapTokens` (each of up to `maxLength` words, in
word order — the closed form `fixedChunkList`); every word index is covered by
some window; and a chunk shares exactly `overlapTokens` words with its
successor whenever it contains the full `maxLength` words.  A chunk that is cut
short by the end of the input (the claim's exception only allows the final one)
may share fewer.  The concrete instance of the claim holds as stated:
`maxLength = 10, overlapTokens = 3` on a 25-word input gives chunks at word
offsets 0, 7, 14, 21, and words 7–9 appear in both the first and second chunk. -/
theorem C6_amended_window_structure :
    (∀ (text : String) (M O : Nat) (md : List (String × String)) (fuel : Nat)
        (chunks : List Chunk), O < M →
        chunk_by_fixed_length text (M : Int) (O : Int) md fuel = some chunks →
        chunks = fixedChunkList (pySplitWs text.data) M O md ∧
        (∀ j, j < (pySplitWs text.data).length → ∃ k,
            k * (M - O) < (pySplitWs text.data).length ∧ k * (M - O) ≤ j ∧
            j < min (k * (M - O) + M) (pySplitWs text.data).length) ∧
        (∀ k, k * (M - O) + M ≤ (pySplitWs text.data).length →
            (windowWordsAt (pySplitWs text.data) M O k).drop (M - O) =
              (windowWordsAt (pySplitWs text.data) M O (k + 1)).take O ∧
            ((windowWordsAt (pySplitWs text.data) M O k).drop (M - O)).length = O)) ∧
    chunk_by_fixed_length "a b c d e f g h i j k l m n o p q r s t u v w x y" 10 3 [] 25 =
      some [Chunk.txt "a b c d e f g h i j" [] "fixed_length",
            Chunk.txt "h i j k l m n o p q" [] "fixed_length",
            Chunk.txt "o p q r s t u v w x" [] "fixed_length",
            Chunk.txt "v w x y" [] "fixed_length"] ∧
    countCommonWords "a b c d e f g h i j" "h i j k l m n o p q" = 3 := by
  refine ⟨?_, by decide, by decide⟩
  intro text M O md fuel chunks hO h
  have hs : 0 < M - O := by omega
  set w := pySplitWs text.data with hw
  set n := w.length with hn
  constructor
  · unfold chunk_by_fixed_length at h
    rw [show (0 : Int) = ((0 * (M - O) : Nat) : Int) by simp] at h
    have := fixedLoop_closed w M O hO md fuel 0 [] chunks h
    rw [this]
    unfold fixedChunkList
    simp
  constructor
  · intro j hj
    refine ⟨j / (M - O), ?_, ?_, ?_⟩
    · calc (j / (M - O)) * (M - O) ≤ j := Nat.div_mul_le_self j (M - O)
        _ < n := hj
    · exact Nat.div_mul_le_self j (M - O)
    · rw [lt_min_iff]
      constructor
      · have h1 : (M - O) * (j / (M - O)) + j % (M - O) = j := Nat.div_add_mod j (M - O)
        have h2 : j % (M - O) < M - O := Nat.mod_lt j hs
        have h3 : (j / (M - O)) * (M - O) = (M - O) * (j / (M - O)) := Nat.mul_comm _ _
        omega
      · exact hj
  · intro k hk
    have hlen : (windowWordsAt w M O k).length = M := by
      unfold windowWordsAt
      rw [min_eq_left hk]
      rw [List.length_drop, List.length_take]
      omega
    constructor
    · unfold windowWordsAt
      rw [min_eq_left hk]
      rw [List.drop_drop, List.drop_take, List.drop_take, List.take_take]
      have e2 : k * (M - O) + (M - O) = (k + 1) * (M - O) := by ring
      rw [e2]
      congr 1
      have h5 : (k + 1) * (M - O) + O = k * (M - O) + M := by
        have e3 : (k + 1) * (M - O) = k * (M - O) + (M - O) := by ring
        omega
      have e4 : O ≤ min ((k + 1) * (M - O) + M) n - (k + 1) * (M - O) := by
        have h6 : (k + 1) * (M - O) + O ≤ n := by omega
        have h7 : (k + 1) * (M - O) + O ≤ (k + 1) * (M - O) + M := by omega
        omega
      rw [min_eq_left e4]
      omega
    · rw [List.length_drop, hlen]
      omega

/-- Witness for the amended C6 on a concrete valid run (`maxLength 2, overlap 0`). -/
theorem C6_amended_window_structure_witness :
    [Chunk.txt "x y" [] "fixed_length"] = fixedChunkList (pySplitWs "x y".data) 2 0 [] :=
  (C6_amended_window_structure.1 "x y" 2 0 [] 5 [Chunk.txt "x y" [] "fixed_length"]
    (by omega) (by decide)).1

/-! ### String toolkit lemmas -/

theorem startsWithL_true_iff : ∀ (needle l : List Char),
    startsWithL needle l = true ↔ ∃ t, l = needle ++ t
  | [], l => by simp [startsWithL]
  | a :: as, [] => by simp [startsWithL]
  | a :: as, x :: t => by
    simp only [startsWithL, Bool.and_eq_true, decide_eq_true_eq]
    rw [startsWithL_true_iff as t]
    constructor
    · rintro ⟨rfl, u, rfl⟩
      exact ⟨u, rfl⟩
    · rintro ⟨u, hu⟩
      rw [List.cons_append] at hu
      injection hu with h1 h2
      exact ⟨h1.symm, u, h2⟩

theorem containsSub_true_iff (needle : List Char) : ∀ (l : List Char),
    containsSub needle l = true ↔ ∃ u v, l = u ++ needle ++ v
  | [] => by
    rw [containsSub, startsWithL_true_iff]
    constructor
    · rintro ⟨t, ht⟩
      exact ⟨[], t, by simpa using ht⟩
    · rintro ⟨u, v, huv⟩
      rcases List.append_eq_nil.mp ((List.append_assoc u needle v ▸ huv).symm) with ⟨rfl, h2⟩
      rcases List.append_eq_nil.mp h2 with ⟨rfl, rfl⟩
      exact ⟨[], rfl⟩
  | c :: rest => by
    rw [containsSub, Bool.or_eq_true, startsWithL_true_iff, containsSub_true_iff needle rest]
    constructor
    · rintro (⟨t, ht⟩ | ⟨u, v, huv⟩)
      · exact ⟨[], t, by simpa using ht⟩
      · exact ⟨c :: u, v, by rw [huv]; rfl⟩
    · rintro ⟨u, v, huv⟩
      cases u with
      | nil => exact .inl ⟨v, by simpa using huv⟩
      | cons c' u' =>
        rw [List.cons_append, List.cons_append] at huv
        injection huv with h1 h2
        exact .inr ⟨u', v, h2⟩

theorem containsSub_sub_false {needle m u v : List Char}
    (h : containsSub needle (u ++ m ++ v) = false) : containsSub needle m = false := by
  by_contra hc
  rw [Bool.not_eq_false, containsSub_true_iff] at hc
  obtain ⟨s, t, rfl⟩ := hc
  have htrue : containsSub needle (u ++ (s ++ needle ++ t) ++ v) = true :=
    (containsSub_true_iff needle _).mpr ⟨u ++ s, t ++ v, by simp [List.append_assoc]⟩
  rw [h] at htrue
  cases htrue

theorem pyRstrip_decomp (x : List Char) :
    x = pyRstrip x ++ (x.reverse.takeWhile pyIsSpace).reverse := by
  unfold pyRstrip
  conv_lhs => rw [← List.reverse_reverse x,
    ← List.takeWhile_append_dropWhile (p := pyIsSpace) (l := x.reverse)]
  rw [List.reverse_append]

theorem pyStrip_decomp (l : List Char) : ∃ u v, l = u ++ pyStrip l ++ v := by
  refine ⟨l.takeWhile pyIsSpace, ((pyLstrip l).reverse.takeWhile pyIsSpace).reverse, ?_⟩
  conv_lhs => rw [← List.takeWhile_append_dropWhile (p := pyIsSpace) (l := l)]
  have h2 : pyLstrip l = pyStrip l ++ ((pyLstrip l).reverse.takeWhile pyIsSpace).reverse :=
    pyRstrip_decomp (pyLstrip l)
  calc l.takeWhile pyIsSpace ++ l.dropWhile pyIsSpace
      = l.takeWhile pyIsSpace ++ pyLstrip l := rfl
    _ = l.takeWhile pyIsSpace ++ (pyStrip l ++ ((pyLstrip l).reverse.takeWhile pyIsSpace).reverse) := by rw [← h2]
    _ = l.takeWhile pyIsSpace ++ pyStrip l ++ ((pyLstrip l).reverse.takeWhile pyIsSpace).reverse := by
        rw [List.append_assoc]

theorem pyRstrip_idem (x : List Char) : pyRstrip (pyRstrip x) = pyRstrip x := by
  unfold pyRstrip
  rw [List.reverse_reverse, List.dropWhile_idempotent]

theorem dropWhile_fix_head {p : Char → Bool} {c : Char} {t : List Char}
    (h : (c :: t).dropWhile p = c :: t) : p c = false := by
  by_contra hc
  rw [Bool.not_eq_false] at hc
  rw [List.dropWhile_cons, if_pos hc] at h
  have hlen := congrArg List.length h
  have h2 : (t.dropWhile p).length ≤ t.length :=
    List.Sublist.length_le (List.dropWhile_sublist _)
  simp at hlen
  omega

theorem dropWhile_fix_rstrip {x : List Char} (h : x.dropWhile pyIsSpace = x) :
    (pyRstrip x).dropWhile pyIsSpace = pyRstrip x := by
  cases x with
  | nil => rfl
  | cons c t =>
    have hc : pyIsSpace c = false := dropWhile_fix_head h
    unfold pyRstrip
    rw [List.reverse_cons, List.dropWhile_append]
    by_cases he : ((t.reverse).dropWhile pyIsSpace).isEmpty
    · rw [if_pos he]
      simp [List.dropWhile_cons, hc]
    · rw [if_neg he]
      rw [List.reverse_append]
      simp [List.dropWhile_cons, hc]

theorem pyStrip_idem (l : List Char) : pyStrip (pyStrip l) = pyStrip l := by
  have h1 : (pyLstrip l).dropWhile pyIsSpace = pyLstrip l := by
    unfold pyLstrip
    rw [List.dropWhile_idempotent]
  show pyRstrip (pyLstrip (pyStrip l)) = pyStrip l
  have h2 : pyLstrip (pyStrip l) = pyStrip l := by
    show (pyRstrip (pyLstrip l)).dropWhile pyIsSpace = pyRstrip (pyLstrip l)
    exact dropWhile_fix_rstrip h1
  rw [h2]
  show pyRstrip (pyRstrip (pyLstrip l)) = pyRstrip (pyLstrip l)
  exact pyRstrip_idem _

theorem pyStrip_cons_ne_nil {c : Char} (t : List Char) (hc : pyIsSpace c = false) :
    pyStrip (c :: t) ≠ [] := by
  show pyRstrip (pyLstrip (c :: t)) ≠ []
  have h1 : pyLstrip (c :: t) = c :: t := by
    unfold pyLstrip
    rw [List.dropWhile_cons, if_neg (by simp [hc])]
  rw [h1]
  unfold pyRstrip
  intro hnil
  rw [List.reverse_eq_nil_iff, List.dropWhile_eq_nil_iff] at hnil
  have := hnil c (by simp)
  rw [hc] at this
  cases this

theorem joinSpace_cons (w : List Char) (rest : List (List Char)) :
    ∃ t, joinSpace (w :: rest) = w ++ t := by
  cases rest with
  | nil => exact ⟨[], by simp [joinSpace, List.intercalate]⟩
  | cons y t =>
    exact ⟨[' '] ++ joinSpace (y :: t), by simp [joinSpace, List.intercalate, List.intersperse]⟩

theorem wordsAux_words : ∀ (l acc : List Char), (∀ c ∈ acc, pyIsSpace c = false) →
    ∀ w ∈ wordsAux l acc, w ≠ [] ∧ ∀ c ∈ w, pyIsSpace c = false := by
  intro l
  induction l with
  | nil =>
    intro acc hacc w hw
    rw [wordsAux] at hw
    by_cases ha : acc.isEmpty
    · rw [if_pos ha] at hw
      cases hw
    · rw [if_neg ha] at hw
      rw [List.mem_singleton] at hw
      subst hw
      refine ⟨by simpa [List.isEmpty_iff] using ha, ?_⟩
      intro c hcm
      exact hacc c (List.mem_reverse.mp hcm)
  | cons c rest ih =>
    intro acc hacc w hw
    rw [wordsAux] at hw
    by_cases hc : pyIsSpace c
    · rw [if_pos hc] at hw
      by_cases ha : acc.isEmpty
      · rw [if_pos ha] at hw
        exact ih [] (by intro x hx; cases hx) w hw
      · rw [if_neg ha] at hw
        rcases List.mem_cons.mp hw with hw1 | hw2
        · subst hw1
          refine ⟨by simpa [List.isEmpty_iff] using ha, ?_⟩
          intro x hxm
          exact hacc x (List.mem_reverse.mp hxm)
        · exact ih [] (by intro x hx; cases hx) w hw2
    · rw [if_neg hc] at hw
      refine ih (c :: acc) ?_ w hw
      intro x hx
      rcases List.mem_cons.mp hx with rfl | hx2
      · simpa using hc
      · exact hacc x hx2

theorem pySplitWs_words (l : List Char) :
    ∀ w ∈ pySplitWs l, w ≠ [] ∧ ∀ c ∈ w, pyIsSpace c = false :=
  wordsAux_words l [] (by intro c hc; cases hc)

/-! ### Scanner lemmas -/

theorem scanAux_forall (m : List Char → Option ((List Char × List Char) × Nat))
    (P : List Char × List Char → Prop)
    (hm : ∀ l p n, m l = some (p, n) → P p) :
    ∀ (fuel : Nat) (l : List Char), ∀ p ∈ scanAux m fuel l, P p := by
  intro fuel
  induction fuel with
  | zero => intro l p hp; simp [scanAux] at hp
  | succ f ih =>
    intro l p hp
    cases l with
    | nil => simp [scanAux] at hp
    | cons c rest =>
      cases hmc : m (c :: rest) with
      | none =>
        simp only [scanAux, hmc] at hp
        exact ih rest p hp
      | some pr =>
        obtain ⟨p', n⟩ := pr
        simp only [scanAux, hmc] at hp
        rcases List.mem_cons.mp hp with rfl | hp2
        · exact hm _ _ _ hmc
        · exact ih _ p hp2

theorem scanAux_eq_nil (m : List Char → Option ((List Char × List Char) × Nat))
    (hstart : ∀ l p n, m l = some (p, n) → startsWithL ['#', '#', '#', '#'] l = true) :
    ∀ (fuel : Nat) (l : List Char),
      containsSub ['#', '#', '#', '#'] l = false → scanAux m fuel l = [] := by
  intro fuel
  induction fuel with
  | zero => intro l _; rfl
  | succ f ih =>
    intro l hl
    cases l with
    | nil => rfl
    | cons c rest =>
      rw [containsSub, Bool.or_eq_false_iff] at hl
      cases hmc : m (c :: rest) with
      | none =>
        simp only [scanAux, hmc]
        exact ih rest hl.2
      | some pr =>
        rw [hstart _ _ _ hmc] at hl
        cases hl.1

theorem matchQaAtN_starts (l : List Char) (p : List Char × List Char) (n : Nat)
    (h : matchQaAtN l = some (p, n)) : startsWithL ['#', '#', '#', '#'] l = true := by
  unfold matchQaAtN at h
  split at h
  · simp [startsWithL]
  · cases h

theorem matchAltAtN_starts (l : List Char) (p : List Char × List Char) (n : Nat)
    (h : matchAltAtN l = some (p, n)) : startsWithL ['#', '#', '#', '#'] l = true := by
  unfold matchAltAtN at h
  split at h
  · simp [startsWithL]
  · cases h

theorem lazyBody_split (stop : List Char → Bool) : ∀ (l b r : List Char),
    lazyBody stop l = some (b, r) → b ++ r = l ∧ b ≠ [] := by
  intro l
  induction l with
  | nil => intro b r h; cases h
  | cons c rest ih =>
    intro b r h
    rw [lazyBody] at h
    by_cases hs : stop rest
    · rw [if_pos hs] at h
      obtain ⟨h1, h2⟩ := Prod.mk.injEq .. ▸ Option.some_inj.mp h
      subst h1; subst h2
      exact ⟨rfl, by simp⟩
    · rw [if_neg hs] at h
      cases hlb : lazyBody stop rest with
      | none => rw [hlb] at h; cases h
      | some pr =>
        obtain ⟨b', r'⟩ := pr
        rw [hlb] at h
        obtain ⟨h1, h2⟩ := Prod.mk.injEq .. ▸ Option.some_inj.mp h
        subst h1; subst h2
        obtain ⟨ha, -⟩ := ih b' r' hlb
        exact ⟨by rw [List.cons_append, ha], by simp⟩

theorem lazyBody_h2_no_h4 : ∀ (l b r : List Char), lazyBody stopH2 l = some (b, r) →
    containsSub ['#', '#', '#', '#'] b = false := by
  intro l
  induction l with
  | nil => intro b r h; cases h
  | cons c rest ih =>
    intro b r h
    rw [lazyBody] at h
    by_cases hs : stopH2 rest
    · rw [if_pos hs] at h
      obtain ⟨h1, h2⟩ := Prod.mk.injEq .. ▸ Option.some_inj.mp h
      subst h1
      simp [containsSub, startsWithL]
    · rw [if_neg hs] at h
      cases hlb : lazyBody stopH2 rest with
      | none => rw [hlb] at h; cases h
      | some pr =>
        obtain ⟨b', r'⟩ := pr
        rw [hlb] at h
        obtain ⟨h1, h2⟩ := Prod.mk.injEq .. ▸ Option.some_inj.mp h
        subst h1; subst h2
        rw [containsSub, Bool.or_eq_false_iff]
        refine ⟨?_, ih b' r' hlb⟩
        by_contra hsw
        rw [Bool.not_eq_false, startsWithL_true_iff] at hsw
        obtain ⟨t, ht⟩ := hsw
        injection ht with h1 h2
        obtain ⟨ha, -⟩ := lazyBody_split stopH2 rest b' r' hlb
        apply hs
        unfold stopH2
        rw [h2] at ha
        rw [← ha]
        simp [startsWithL]

theorem sectionWsLoop_no_h4 (rest : List Char) :
    ∀ (k : Nat) (t b : List Char) (n : Nat), sectionWsLoop rest k = some ((t, b), n) →
      containsSub ['#', '#', '#', '#'] b = false := by
  intro k
  induction k with
  | zero => intro t b n h; cases h
  | succ k ih =>
    intro t b n h
    rw [sectionWsLoop] at h
    split at h
    · exact ih _ _ _ h
    · split at h
      · split at h
        · exact ih _ _ _ h
        · split at h
          · rename_i b' r' hlb
            obtain ⟨h1, h2⟩ := Prod.mk.injEq .. ▸ Option.some_inj.mp h
            obtain ⟨h3, h4⟩ := Prod.mk.injEq .. ▸ h1
            subst h4
            exact lazyBody_h2_no_h4 _ _ _ hlb
          · exact ih _ _ _ h
      · exact ih _ _ _ h

theorem matchSectionAtN_no_h4 (l : List Char) (p : List Char × List Char) (n : Nat)
    (h : matchSectionAtN l = some (p, n)) :
    containsSub ['#', '#', '#', '#'] p.2 = false := by
  unfold matchSectionAtN at h
  split at h
  · obtain ⟨t, b⟩ := p
    exact sectionWsLoop_no_h4 _ _ _ _ _ h
  · cases h

theorem split_sections_no_h4 (content : String) :
    ∀ s ∈ _split_by_sections content,
      containsSub ['#', '#', '#', '#'] s.content.data = false := by
  intro s hs
  unfold _split_by_sections at hs
  rw [List.mem_filterMap] at hs
  obtain ⟨p, hp, hps⟩ := hs
  have hb : containsSub ['#', '#', '#', '#'] p.2 = false :=
    scanAux_forall matchSectionAtN _ matchSectionAtN_no_h4 _ _ p hp
  by_cases htoc : containsSub "Table of Contents".data (pyStrip p.1) = true
  · simp only [htoc, if_true] at hps
    cases hps
  · simp only [Bool.not_eq_true] at htoc
    simp only [htoc, Bool.false_eq_true, if_false] at hps
    obtain rfl := Option.some_inj.mp hps
    show containsSub ['#', '#', '#', '#'] (pyStrip p.2) = false
    obtain ⟨u, v, hdec⟩ := pyStrip_decomp p.2
    exact containsSub_sub_false (by rw [← hdec]; exact hb)

theorem processSection_no_h4 (title content : String)
    (h : containsSub ['#', '#', '#', '#'] content.data = false) :
    processSection title content =
      chunk_by_paragraph content
        [("source", "FAQ.md"), ("section", title), ("type", "paragraph")] := by
  have h1 : findQaPrimary content.data = [] :=
    scanAux_eq_nil matchQaAtN matchQaAtN_starts _ _ h
  have h2 : findQaAlt content.data = [] :=
    scanAux_eq_nil matchAltAtN matchAltAtN_starts _ _ h
  unfold processSection
  rw [h1]
  simp only [List.isEmpty_nil, if_true]
  rw [h2]
  simp

theorem extract_qa_pairs_only_paragraphs (content : String) :
    ∀ c ∈ extract_qa_pairs content, ∃ p md,
      (pyStrip p).isEmpty = false ∧ c = Chunk.txt ⟨pyStrip p⟩ md "paragraph" := by
  intro c hc
  unfold extract_qa_pairs at hc
  rw [List.mem_flatMap] at hc
  obtain ⟨s, hs, hcs⟩ := hc
  rw [processSection_no_h4 s.title s.content (split_sections_no_h4 content s hs)] at hcs
  obtain ⟨p, hne, hcp⟩ := mem_chunk_by_paragraph hcs
  exact ⟨p, _, hne, hcp⟩

/-! ### C9 -/

/-- C9: for every document and every strategy, under a valid fixed-length
configuration (`0 ≤ overlapTokens < maxLength`, which the spec requires),
every produced chunk's content is non-empty after trimming.  (For the
`qa_pair` strategy all produced chunks are in fact paragraph chunks, whose
text is non-empty by the `para.strip()` filter; fixed-length chunks contain
at least one whitespace-free word.) -/
theorem C9_chunk_content_nonempty (content file_path strategy : String) (M O : Nat)
    (fuel : Nat) (chunks : List Chunk) (hO : O < M)
    (h : process_markdown_file content file_path strategy (M : Int) (O : Int) fuel =
      .ok chunks) :
    ∀ c ∈ chunks, c.trimNonempty := by
  intro c hc
  simp only [process_markdown_file] at h
  by_cases h1 : strategy = "qa_pair"
  · rw [if_pos h1] at h
    obtain rfl := (Except.ok.injEq _ _).mp h
    obtain ⟨p, md0, hne, hcp⟩ := extract_qa_pairs_only_paragraphs _ c hc
    subst hcp
    show pyStrip (pyStrip p) ≠ []
    rw [pyStrip_idem]
    simpa using hne
  · rw [if_neg h1] at h
    by_cases h2 : strategy = "paragraph"
    · rw [if_pos h2] at h
      obtain rfl := (Except.ok.injEq _ _).mp h
      obtain ⟨p, hne, hcp⟩ := mem_chunk_by_paragraph hc
      subst hcp
      show pyStrip (pyStrip p) ≠ []
      rw [pyStrip_idem]
      simpa using hne
    · rw [if_neg h2] at h
      by_cases h3 : strategy = "fixed_length"
      · rw [if_pos h3] at h
        revert h
        cases hcl : chunk_by_fixed_length ⟨_clean_markdown content.data⟩ (M : Int) (O : Int)
            [("source", pathName file_path)] fuel with
        | none => intro h; cases h
        | some cs =>
          intro h
          obtain rfl := (Except.ok.injEq _ _).mp h
          unfold chunk_by_fixed_length at hcl
          rw [show (0 : Int) = ((0 * (M - O) : Nat) : Int) by simp] at hcl
          have hclosed := fixedLoop_closed _ M O hO _ fuel 0 [] cs hcl
          rw [hclosed] at hc
          simp only [List.nil_append, List.mem_map, List.mem_range, Nat.zero_add] at hc
          obtain ⟨k, hk, hck⟩ := hc
          subst hck
          have hs : 0 < M - O := by omega
          have hkn : k * (M - O) <
              (pySplitWs (String.mk (_clean_markdown content.data)).data).length :=
            (lt_ceil_iff _ _ _ hs).mp hk
          show pyStrip (joinSpace _) ≠ []
          set w := pySplitWs (String.mk (_clean_markdown content.data)).data with hw
          set X := (w.take (min (k * (M - O) + M) w.length)).drop (k * (M - O)) with hX
          have hXlen : X.length = min (k * (M - O) + M) w.length - k * (M - O) := by
            rw [hX, List.length_drop, List.length_take]
            omega
          have hXne : X ≠ [] := by
            intro hXnil
            rw [hXnil] at hXlen
            simp at hXlen
            omega
          obtain ⟨w0, X', hXc⟩ := List.exists_cons_of_ne_nil hXne
          have hw0 : w0 ∈ w := by
        
            have hmem : w0 ∈ X := by rw [hXc]; exact List.mem_cons_self _ _
            rw [hX] at hmem
            exact List.mem_of_mem_take (List.mem_of_mem_drop hmem)
          obtain ⟨hw0ne, hw0ch⟩ := pySplitWs_words _ w0 hw0
          obtain ⟨ch, w0', hch⟩ := List.exists_cons_of_ne_nil hw0ne
          obtain ⟨t, hjoin⟩ := joinSpace_cons w0 X'
          rw [hXc, hjoin, hch, List.cons_append]
          exact pyStrip_cons_ne_nil _ (hw0ch ch (by rw [hch]; exact List.mem_cons_self _ _))
      · rw [if_neg h3] at h
        cases h

/-- Witness for C9 at a concrete `paragraph`-strategy run. -/
theorem C9_chunk_content_nonempty_witness :
    (Chunk.txt "hi" [("source", "f.md")] "paragraph").trimNonempty :=
  C9_chunk_content_nonempty "hi" "f.md" "paragraph" 2 1 9 _ (by omega) rfl _ (by decide)

/-! ### Scanner stepping lemmas (fuel irrelevance and single steps) -/

theorem scanAux_fuel_irrel (m : List Char → Option ((List Char × List Char) × Nat))
    (hm : ∀ l p n, m l = some (p, n) → 1 ≤ n) :
    ∀ (f1 f2 : Nat) (l : List Char), l.length < f1 → l.length < f2 →
      scanAux m f1 l = scanAux m f2 l := by
  intro f1
  induction f1 with
  | zero => intro f2 l h1 _; omega
  | succ f ih =>
    intro f2 l h1 h2
    cases f2 with
    | zero => omega
    | succ g =>
      cases l with
      | nil => rfl
      | cons c rest =>
        rw [List.length_cons] at h1 h2
        cases hmc : m (c :: rest) with
        | none =>
          simp only [scanAux, hmc]
          exact ih g rest (by omega) (by omega)
        | some pr =>
          obtain ⟨p, n⟩ := pr
          simp only [scanAux, hmc]
          congr 1
          have hn : 1 ≤ n := hm _ _ _ hmc
          apply ih g
          · rw [List.length_drop, List.length_cons]
            omega
          · rw [List.length_drop, List.length_cons]
            omega

theorem sectionWsLoop_pos (rest : List Char) :
    ∀ (k : Nat) (p : List Char × List Char) (n : Nat),
      sectionWsLoop rest k = some (p, n) → 1 ≤ n := by
  intro k
  induction k with
  | zero => intro p n h; cases h
  | succ k ih =>
    intro p n h
    rw [sectionWsLoop] at h
    split at h
    · exact ih _ _ h
    · split at h
      · split at h
        · exact ih _ _ h
        · split at h
          · obtain ⟨-, h2⟩ := Prod.mk.injEq .. ▸ Option.some_inj.mp h
            omega
          · exact ih _ _ h
      · exact ih _ _ h

theorem altWsLoop_pos (rest : List Char) :
    ∀ (k : Nat) (p : List Char × List Char) (n : Nat),
      altWsLoop rest k = some (p, n) → 1 ≤ n := by
  intro k
  induction k with
  | zero => intro p n h; cases h
  | succ k ih =>
    intro p n h
    rw [altWsLoop] at h
    split at h
    · exact ih _ _ h
    · split at h
      · split at h
        · exact ih _ _ h
        · split at h
          · obtain ⟨-, h2⟩ := Prod.mk.injEq .. ▸ Option.some_inj.mp h
            omega
          · exact ih _ _ h
      · exact ih _ _ h

theorem matchSectionAtN_pos (l : List Char) (p : List Char × List Char) (n : Nat)
    (h : matchSectionAtN l = some (p, n)) : 1 ≤ n := by
  unfold matchSectionAtN at h
  split at h
  · exact sectionWsLoop_pos _ _ _ _ h
  · cases h

theorem matchAltAtN_pos (l : List Char) (p : List Char × List Char) (n : Nat)
    (h : matchAltAtN l = some (p, n)) : 1 ≤ n := by
  unfold matchAltAtN at h
  split at h
  · exact altWsLoop_pos _ _ _ _ h
  · cases h

theorem scanTop_match (m : List Char → Option ((List Char × List Char) × Nat))
    (hm : ∀ l p n, m l = some (p, n) → 1 ≤ n)
    (c : Char) (rest : List Char) (p : List Char × List Char) (n : Nat)
    (h : m (c :: rest) = some (p, n)) :
    scanAux m ((c :: rest).length + 1) (c :: rest) =
      p :: scanAux m (((c :: rest).drop n).length + 1) ((c :: rest).drop n) := by
  rw [List.length_cons]
  simp only [scanAux, h]
  congr 1
  apply scanAux_fuel_irrel m hm
  · rw [List.length_drop, List.length_cons]
    have := hm _ _ _ h
    omega
  · omega

theorem scanTop_skip (m : List Char → Option ((List Char × List Char) × Nat))
    (hm : ∀ l p n, m l = some (p, n) → 1 ≤ n)
    (c : Char) (rest : List Char) (h : m (c :: rest) = none) :
    scanAux m ((c :: rest).length + 1) (c :: rest) =
      scanAux m (rest.length + 1) rest := by
  rw [List.length_cons]
  simp only [scanAux, h]

theorem takeWhile_all_append {p : Char → Bool} {t : List Char} (d : Char) (z : List Char)
    (ht : ∀ c ∈ t, p c = true) (hd : p d = false) :
    (t ++ d :: z).takeWhile p = t := by
  induction t with
  | nil => simp [List.takeWhile_cons, hd]
  | cons c cs ih =>
    rw [List.cons_append, List.takeWhile_cons, ht c (List.mem_cons_self _ _), if_pos rfl]
    rw [ih (fun x hx => ht x (List.mem_cons_of_mem _ hx))]

theorem lazyBody_append (stop : List Char → Bool)
    (hstop : ∀ (c : Char) (r' : List Char), c ≠ '#' → stop (c :: r') = false) :
    ∀ (b rest : List Char), b ≠ [] → (∀ c ∈ b, c ≠ '#') → stop rest = true →
      lazyBody stop (b ++ rest) = some (b, rest) := by
  intro b
  induction b with
  | nil => intro rest h; cases h rfl
  | cons c bs ih =>
    intro rest _ hch hrest
    rw [List.cons_append, lazyBody]
    cases bs with
    | nil =>
      rw [List.nil_append, if_pos hrest]
    | cons c' bs' =>
      have hc' : c' ≠ '#' := hch c' (by simp)
      rw [if_neg (by rw [List.cons_append]; rw [hstop c' _ hc']; simp)]
      rw [ih rest (by simp) (fun x hx => hch x (List.mem_cons_of_mem _ hx)) hrest]

theorem stopH2_not_hash (c : Char) (r' : List Char) (hc : c ≠ '#') :
    stopH2 (c :: r') = false := by
  unfold stopH2
  simp [startsWithL, hc]
  intro heq
  exact absurd heq.symm hc

theorem stopH4_not_hash (c : Char) (r' : List Char) (hc : c ≠ '#') :
    stopH4 (c :: r') = false := by
  unfold stopH4
  simp [startsWithL, hc]
  intro heq
  exact absurd heq.symm hc

/-! ### Structured-family lemmas for the section splitter and the Q&A fallback -/

theorem wfTitle_parts {t : List Char} (ht : wfTitle t = true) :
    t ≠ [] ∧ (∀ c ∈ t, c ≠ '\n' ∧ c ≠ '#') ∧ pyIsSpace (t.headD 'x') = false := by
  unfold wfTitle at ht
  simp only [Bool.and_eq_true, Bool.not_eq_true'] at ht
  obtain ⟨⟨h1, h2⟩, h3⟩ := ht
  refine ⟨by simpa [List.isEmpty_iff] using h1, ?_, h3⟩
  intro c hc
  have := List.all_eq_true.mp h2 c hc
  simp at this
  exact this

theorem wfBody_parts {b : List Char} (hb : wfBody b = true) :
    b ≠ [] ∧ ∀ c ∈ b, c ≠ '#' := by
  unfold wfBody at hb
  simp only [Bool.and_eq_true, Bool.not_eq_true'] at hb
  obtain ⟨h1, h2⟩ := hb
  refine ⟨by simpa [List.isEmpty_iff] using h1, ?_⟩
  intro c hc
  have := List.all_eq_true.mp h2 c hc
  simpa using this

theorem matchSectionAtN_block (t b rest : List Char)
    (ht : wfTitle t = true) (hb : wfBody b = true) (hrest : stopH2 rest = true) :
    matchSectionAtN (secBlock 2 t b ++ rest) =
      some ((t, b), 2 + 1 + t.length + 1 + b.length) := by
  obtain ⟨htne, htch, hthead⟩ := wfTitle_parts ht
  obtain ⟨hbne, hbch⟩ := wfBody_parts hb
  obtain ⟨tc, t', rfl⟩ := List.exists_cons_of_ne_nil htne
  have htc : pyIsSpace tc = false := hthead
  have hform : secBlock 2 (tc :: t') b ++ rest =
      '#' :: '#' :: (' ' :: ((tc :: t') ++ '\n' :: (b ++ rest))) := by
    simp [secBlock, List.replicate, List.append_assoc]
  rw [hform]
  show sectionWsLoop (' ' :: ((tc :: t') ++ '\n' :: (b ++ rest)))
      ((' ' :: ((tc :: t') ++ '\n' :: (b ++ rest))).takeWhile pyIsSpace).length = _
  have hW : ((' ' :: ((tc :: t') ++ '\n' :: (b ++ rest))).takeWhile pyIsSpace) = [' '] := by
    rw [List.takeWhile_cons, if_pos (by decide), List.cons_append, List.takeWhile_cons]
    rw [htc]
    simp
  rw [hW]
  show sectionWsLoop (' ' :: ((tc :: t') ++ '\n' :: (b ++ rest))) (0 + 1) = _
  rw [sectionWsLoop]
  have hdrop1 : (' ' :: ((tc :: t') ++ '\n' :: (b ++ rest))).drop (0 + 1) =
      (tc :: t') ++ '\n' :: (b ++ rest) := rfl
  simp only [hdrop1]
  have hT : ((tc :: t') ++ '\n' :: (b ++ rest)).takeWhile (fun c => c ≠ '\n') = (tc :: t') := by
    apply takeWhile_all_append
    · intro c hc
      simp [(htch c hc).1]
    · simp
  rw [hT]
  have hTne : (tc :: t').isEmpty = false := rfl
  rw [hTne]
  have hlen : (tc :: t').length < ((tc :: t') ++ '\n' :: (b ++ rest)).length := by
    rw [List.length_append]
    have h0 : 0 < ('\n' :: (b ++ rest)).length := by simp
    omega
  simp only [Bool.false_eq_true, if_false, if_pos hlen]
  have hdropT : ((tc :: t') ++ '\n' :: (b ++ rest)).drop ((tc :: t').length + 1) = b ++ rest := by
    have : (tc :: t') ++ '\n' :: (b ++ rest) = ((tc :: t') ++ ['\n']) ++ (b ++ rest) := by
      simp [List.append_assoc]
    rw [this]
    have hlen2 : (tc :: t').length + 1 = ((tc :: t') ++ ['\n']).length := by
      rw [List.length_append]
      rfl
    rw [hlen2, List.drop_left]
  rw [hdropT]
  have hbre : (b ++ rest).isEmpty = false := by
    obtain ⟨bc, b', rfl⟩ := List.exists_cons_of_ne_nil hbne
    rfl
  rw [hbre]
  simp only [Bool.false_eq_true, if_false]
  rw [lazyBody_append stopH2 stopH2_not_hash b rest hbne hbch hrest]

theorem matchAltAtN_block (q a rest : List Char)
    (hq : wfTitle q = true) (ha : wfBody a = true) (hrest : stopH4 rest = true) :
    matchAltAtN (qaBlock q a ++ rest) =
      some ((q, a), 4 + 1 + q.length + 1 + a.length) := by
  obtain ⟨hqne, hqch, hqhead⟩ := wfTitle_parts hq
  obtain ⟨hane, hach⟩ := wfBody_parts ha
  obtain ⟨qc, q', rfl⟩ := List.exists_cons_of_ne_nil hqne
  have hqc : pyIsSpace qc = false := hqhead
  have hform : qaBlock (qc :: q') a ++ rest =
      '#' :: '#' :: '#' :: '#' :: (' ' :: ((qc :: q') ++ '\n' :: (a ++ rest))) := by
    simp [qaBlock, List.append_assoc]
  rw [hform]
  show altWsLoop (' ' :: ((qc :: q') ++ '\n' :: (a ++ rest)))
      ((' ' :: ((qc :: q') ++ '\n' :: (a ++ rest))).takeWhile pyIsSpace).length = _
  have hW : ((' ' :: ((qc :: q') ++ '\n' :: (a ++ rest))).takeWhile pyIsSpace) = [' '] := by
    rw [List.takeWhile_cons, if_pos (by decide), List.cons_append, List.takeWhile_cons]
    rw [hqc]
    simp
  rw [hW]
  show altWsLoop (' ' :: ((qc :: q') ++ '\n' :: (a ++ rest))) (0 + 1) = _
  rw [altWsLoop]
  have hdrop1 : (' ' :: ((qc :: q') ++ '\n' :: (a ++ rest))).drop (0 + 1) =
      (qc :: q') ++ '\n' :: (a ++ rest) := rfl
  simp only [hdrop1]
  have hT : ((qc :: q') ++ '\n' :: (a ++ rest)).takeWhile (fun c => c ≠ '#' && c ≠ '\n') =
      (qc :: q') := by
    apply takeWhile_all_append
    · intro c hc
      simp [(hqch c hc).1, (hqch c hc).2]
    · simp
  rw [hT]
  have hTne : (qc :: q').isEmpty = false := rfl
  rw [hTne]
  simp only [Bool.false_eq_true, if_false]
  have hdropT : ((qc :: q') ++ '\n' :: (a ++ rest)).drop ((qc :: q').length) =
      '\n' :: (a ++ rest) := by
    rw [List.drop_left]
  rw [hdropT]
  have hare : (a ++ rest).isEmpty = false := by
    obtain ⟨ac, a', rfl⟩ := List.exists_cons_of_ne_nil hane
    rfl
  simp only [hare, Bool.false_eq_true, if_false]
  rw [lazyBody_append stopH4 stopH4_not_hash a rest hane hach hrest]

theorem matchSectionAtN_hash3 (z : List Char) :
    matchSectionAtN ('#' :: '#' :: '#' :: z) = none := rfl

theorem secBlock_length (h : Nat) (t b : List Char) :
    (secBlock h t b).length = h + 1 + t.length + 1 + b.length := by
  simp [secBlock]
  omega

theorem scanTop_match_ne (m : List Char → Option ((List Char × List Char) × Nat))
    (hm : ∀ l p n, m l = some (p, n) → 1 ≤ n)
    (l : List Char) (p : List Char × List Char) (n : Nat)
    (h : m l = some (p, n)) (hl : l ≠ []) :
    scanAux m (l.length + 1) l = p :: scanAux m ((l.drop n).length + 1) (l.drop n) := by
  obtain ⟨c, rest, rfl⟩ := List.exists_cons_of_ne_nil hl
  exact scanTop_match m hm c rest p n h

theorem findSections_block2 (t b rest : List Char)
    (ht : wfTitle t = true) (hb : wfBody b = true) (hrest : stopH2 rest = true) :
    findSections (secBlock 2 t b ++ rest) = (t, b) :: findSections rest := by
  have hm := matchSectionAtN_block t b rest ht hb hrest
  have hne : secBlock 2 t b ++ rest ≠ [] := by
    simp [secBlock]
  have hstep := scanTop_match_ne matchSectionAtN matchSectionAtN_pos _ _ _ hm hne
  have hdrop : (secBlock 2 t b ++ rest).drop (2 + 1 + t.length + 1 + b.length) = rest := by
    rw [show 2 + 1 + t.length + 1 + b.length = (secBlock 2 t b).length from by
      rw [secBlock_length]]
    rw [List.drop_left]
  rw [hdrop] at hstep
  exact hstep

theorem filterMap_all_some {α β : Type} (l : List α) (f : α → Option β) (g : α → β)
    (h : ∀ x ∈ l, f x = some (g x)) : l.filterMap f = l.map g := by
  induction l with
  | nil => rfl
  | cons x xs ih =>
    rw [List.filterMap_cons, h x (List.mem_cons_self _ _), List.map_cons]
    rw [ih (fun y hy => h y (List.mem_cons_of_mem _ hy))]

theorem findSections_skip (c : Char) (rest : List Char)
    (h : matchSectionAtN (c :: rest) = none) :
    findSections (c :: rest) = findSections rest := by
  show scanAux matchSectionAtN ((c :: rest).length + 1) (c :: rest) =
    scanAux matchSectionAtN (rest.length + 1) rest
  exact scanTop_skip matchSectionAtN matchSectionAtN_pos c rest h

theorem findSections_mkSecDoc : ∀ (blocks : List (Nat × List Char × List Char)),
    (∀ x ∈ blocks, (x.1 = 2 ∨ x.1 = 3 ∨ x.1 = 4) ∧ wfTitle x.2.1 = true ∧ wfBody x.2.2 = true) →
    findSections (mkSecDoc blocks) = blocks.map (fun x => (x.2.1, x.2.2)) := by
  intro blocks
  induction blocks with
  | nil => intro _; rfl
  | cons x blks ih =>
    intro hall
    obtain ⟨hnum, t, b⟩ := x
    obtain ⟨hh, ht, hb⟩ := hall _ (List.mem_cons_self _ _)
    have hallb := fun y hy => hall y (List.mem_cons_of_mem _ hy)
    have hrest : stopH2 (mkSecDoc blks) = true := by
      cases blks with
      | nil => rfl
      | cons y ys =>
        obtain ⟨hy2, -, -⟩ := hallb y (List.mem_cons_self _ _)
        obtain ⟨h', t', b'⟩ := y
        simp only at hy2
        rcases hy2 with rfl | rfl | rfl <;>
          simp [mkSecDoc, secBlock, List.replicate, stopH2, startsWithL]
    have hstep : mkSecDoc ((hnum, t, b) :: blks) = secBlock hnum t b ++ mkSecDoc blks := by
      simp [mkSecDoc]
    simp only at hh
    rcases hh with rfl | rfl | rfl
    · rw [hstep, findSections_block2 t b _ ht hb hrest, ih hallb]
      rfl
    · rw [hstep]
      have hform : secBlock 3 t b ++ mkSecDoc blks =
          '#' :: (secBlock 2 t b ++ mkSecDoc blks) := by
        simp [secBlock, List.replicate]
      rw [hform]
      have hskip : matchSectionAtN ('#' :: (secBlock 2 t b ++ mkSecDoc blks)) = none := by
        have : '#' :: (secBlock 2 t b ++ mkSecDoc blks) =
            '#' :: '#' :: '#' :: (' ' :: (t ++ '\n' :: b) ++ mkSecDoc blks) := by
          simp [secBlock, List.replicate]
        rw [this, matchSectionAtN_hash3]
      rw [findSections_skip _ _ hskip]
      rw [findSections_block2 t b _ ht hb hrest, ih hallb]
      rfl
    · rw [hstep]
      have hform : secBlock 4 t b ++ mkSecDoc blks =
          '#' :: '#' :: (secBlock 2 t b ++ mkSecDoc blks) := by
        simp [secBlock, List.replicate]
      rw [hform]
      have hskip1 : matchSectionAtN ('#' :: '#' :: (secBlock 2 t b ++ mkSecDoc blks)) = none := by
        have : '#' :: '#' :: (secBlock 2 t b ++ mkSecDoc blks) =
            '#' :: '#' :: '#' :: ('#' :: ' ' :: (t ++ '\n' :: b) ++ mkSecDoc blks) := by
          simp [secBlock, List.replicate]
        rw [this, matchSectionAtN_hash3]
      have hskip2 : matchSectionAtN ('#' :: (secBlock 2 t b ++ mkSecDoc blks)) = none := by
        have : '#' :: (secBlock 2 t b ++ mkSecDoc blks) =
            '#' :: '#' :: '#' :: (' ' :: (t ++ '\n' :: b) ++ mkSecDoc blks) := by
          simp [secBlock, List.replicate]
        rw [this, matchSectionAtN_hash3]
      rw [findSections_skip _ _ hskip1]
      rw [findSections_skip _ _ hskip2]
      rw [findSections_block2 t b _ ht hb hrest, ih hallb]
      rfl

/-- C2 (amended): the splitter treats every occurrence of `##` followed by
whitespace as a section boundary — including occurrences beginning inside
third- and fourth-level headings (whose extra leading `#` characters are
dropped) — provided at least one character of content separates it from the
previous heading line; each section's content is everything from after its
heading line up to (but not including) the next `##` occurrence or the end of
the document, with title and content trimmed; sections appear in boundary
order.  Stated on the family of documents made of `##`/`###`/`####` heading
blocks with single-line `#`-free titles and non-empty `#`-free bodies: every
block, whatever its heading level, becomes its own section. -/
theorem C2_amended_section_boundaries (blocks : List (Nat × List Char × List Char))
    (hwf : ∀ x ∈ blocks,
      (x.1 = 2 ∨ x.1 = 3 ∨ x.1 = 4) ∧ wfTitle x.2.1 = true ∧ wfBody x.2.2 = true)
    (htoc : ∀ x ∈ blocks,
      containsSub "Table of Contents".data (pyStrip x.2.1) = false) :
    _split_by_sections ⟨mkSecDoc blocks⟩ =
      blocks.map (fun x => ⟨⟨pyStrip x.2.1⟩, ⟨pyStrip x.2.2⟩⟩) := by
  unfold _split_by_sections
  show (findSections (mkSecDoc blocks)).filterMap _ = _
  rw [findSections_mkSecDoc blocks hwf, List.filterMap_map]
  apply filterMap_all_some
  intro x hx
  simp only [Function.comp_apply]
  rw [if_neg (by rw [htoc x hx]; simp)]

/-- Witness for the amended C2: a `###` block becomes its own section. -/
theorem C2_amended_section_boundaries_witness :
    _split_by_sections ⟨mkSecDoc [(2, "A".data, "x\n".data), (3, "B".data, "y".data)]⟩ =
      [⟨"A", "x"⟩, ⟨"B", "y"⟩] := by
  rw [C2_amended_section_boundaries _ (by decide) (by decide)]
  decide

theorem stopH4_mkQaDoc (blocks : List (List Char × List Char)) :
    stopH4 (mkQaDoc blocks) = true := by
  cases blocks with
  | nil => rfl
  | cons x blks =>
    obtain ⟨q, a⟩ := x
    simp [mkQaDoc, qaBlock, stopH4, startsWithL]

theorem qaBlock_length (q a : List Char) :
    (qaBlock q a).length = 4 + 1 + q.length + 1 + a.length := by
  simp [qaBlock]
  omega

theorem findQaAlt_step (l : List Char) (p : List Char × List Char) (n : Nat)
    (h : matchAltAtN l = some (p, n)) (hl : l ≠ []) :
    findQaAlt l = p :: findQaAlt (l.drop n) := by
  show scanAux matchAltAtN (l.length + 1) l = _
  exact scanTop_match_ne matchAltAtN matchAltAtN_pos l p n h hl

theorem findQaAlt_mkQaDoc : ∀ (blocks : List (List Char × List Char)),
    (∀ x ∈ blocks, wfTitle x.1 = true ∧ wfBody x.2 = true) →
    findQaAlt (mkQaDoc blocks) = blocks := by
  intro blocks
  induction blocks with
  | nil => intro _; rfl
  | cons x blks ih =>
    intro hall
    obtain ⟨q, a⟩ := x
    obtain ⟨hq, ha⟩ := hall _ (List.mem_cons_self _ _)
    have hallb := fun y hy => hall y (List.mem_cons_of_mem _ hy)
    have hstep : mkQaDoc ((q, a) :: blks) = qaBlock q a ++ mkQaDoc blks := by
      simp [mkQaDoc]
    rw [hstep]
    have hm := matchAltAtN_block q a (mkQaDoc blks) hq ha (stopH4_mkQaDoc blks)
    have hne : qaBlock q a ++ mkQaDoc blks ≠ [] := by
      simp [qaBlock]
    rw [findQaAlt_step _ _ _ hm hne]
    have hdrop : (qaBlock q a ++ mkQaDoc blks).drop (4 + 1 + q.length + 1 + a.length) =
        mkQaDoc blks := by
      rw [show 4 + 1 + q.length + 1 + a.length = (qaBlock q a).length from by
        rw [qaBlock_length]]
      rw [List.drop_left]
    rw [hdrop, ih hallb]

/-- C4 (amended): for every section content in which the primary pattern yields
zero matches, the fallback pattern produces exactly one `qa_pair` chunk per
`####` heading whose single-line heading text contains no `#` and is followed
by a non-empty answer, in order; the stored question is the heading text
trimmed, with any leading `Q<digits>:` prefix (and following whitespace)
removed — not verbatim — and the answer is the trimmed text up to the next
`####` heading or the end of the section. -/
theorem C4_amended_fallback_per_heading (title : String)
    (blocks : List (List Char × List Char))
    (hwf : ∀ x ∈ blocks, wfTitle x.1 = true ∧ wfBody x.2 = true)
    (hprim : findQaPrimary (mkQaDoc blocks) = []) :
    processSection title ⟨mkQaDoc blocks⟩ = blocks.map (fun x =>
      Chunk.qa ⟨stripQNum (pyStrip x.1)⟩ ⟨pyStrip x.2⟩ title
        [("source", "FAQ.md"), ("section", title), ("type", "qa_pair")]) := by
  unfold processSection
  show (let prim := findQaPrimary (mkQaDoc blocks); _) = _
  rw [hprim]
  simp only [List.isEmpty_nil, if_true]
  rw [show findQaAlt (String.data ⟨mkQaDoc blocks⟩) = findQaAlt (mkQaDoc blocks) from rfl]
  rw [findQaAlt_mkQaDoc blocks hwf]
  cases blocks with
  | nil => simp [chunk_by_paragraph, reSplitBlank, reSplitAux, mkQaDoc, pyStrip, pyLstrip,
      pyRstrip]
  | cons x blks =>
    have hne : ((x :: blks) : List (List Char × List Char)).isEmpty = false := rfl
    rw [hne]
    simp only [Bool.false_eq_true, if_false, List.append_nil]
    rfl

/-- Witness for the amended C4 on a concrete two-heading section. -/
theorem C4_amended_fallback_per_heading_witness :
    processSection "S" ⟨mkQaDoc [("Alpha".data, "first\n".data), ("Beta".data, "second".data)]⟩ =
      [Chunk.qa "Alpha" "first" "S"
        [("source", "FAQ.md"), ("section", "S"), ("type", "qa_pair")],
       Chunk.qa "Beta" "second" "S"
        [("source", "FAQ.md"), ("section", "S"), ("type", "qa_pair")]] := by
  rw [C4_amended_fallback_per_heading "S" _ (by decide) (by decide)]
  decide

/-! ### Paragraph-splitter toolkit (towards C7) -/

theorem consPiece_ne_nil (c : Char) (ps : List (List Char)) : consPiece c ps ≠ [] := by
  cases ps <;> simp [consPiece]

theorem reSplitAux_ne_nil : ∀ (f : Nat) (l : List Char), reSplitAux f l ≠ [] := by
  intro f
  induction f with
  | zero => intro l; simp [reSplitAux]
  | succ f ih =>
    intro l
    cases l with
    | nil => simp [reSplitAux]
    | cons c rest =>
      by_cases hc : c = '\n'
      · subst hc
        cases hln : lastNl (rest.takeWhile pyIsSpace) with
        | some j => simp only [reSplitAux, if_pos rfl, hln]; simp
        | none => simp only [reSplitAux, if_pos rfl, hln]; exact consPiece_ne_nil _ _
      · simp only [reSplitAux, if_neg hc]
        exact consPiece_ne_nil _ _

theorem specSplitAux_ne_nil : ∀ (f : Nat) (l : List Char), specSplitAux f l ≠ [] := by
  intro f
  induction f with
  | zero => intro l; simp [specSplitAux]
  | succ f ih =>
    intro l
    cases l with
    | nil => simp [specSplitAux]
    | cons c rest =>
      by_cases hc : (pyIsSpace c && decide (2 ≤ ((c :: rest).takeWhile pyIsSpace).count '\n')) = true
      · simp only [specSplitAux, if_pos hc]; simp
      · simp only [specSplitAux, if_neg hc]
        exact consPiece_ne_nil _ _

theorem reSplitAux_fuel_irrel : ∀ (f1 f2 : Nat) (l : List Char),
    l.length < f1 → l.length < f2 → reSplitAux f1 l = reSplitAux f2 l := by
  intro f1
  induction f1 with
  | zero => intro f2 l h1 _; omega
  | succ f ih =>
    intro f2 l h1 h2
    cases f2 with
    | zero => omega
    | succ g =>
      cases l with
      | nil => rfl
      | cons c rest =>
        rw [List.length_cons] at h1 h2
        by_cases hc : c = '\n'
        · subst hc
          cases hln : lastNl (rest.takeWhile pyIsSpace) with
          | some j =>
            simp only [reSplitAux, eq_self_iff_true, if_true, hln]
            congr 1
            apply ih g
            · rw [List.length_drop]; omega
            · rw [List.length_drop]; omega
          | none =>
            simp only [reSplitAux, eq_self_iff_true, if_true, hln]
            rw [ih g rest (by omega) (by omega)]
        · simp only [reSplitAux, if_neg hc]
          rw [ih g rest (by omega) (by omega)]

theorem specSplitAux_fuel_irrel : ∀ (f1 f2 : Nat) (l : List Char),
    l.length < f1 → l.length < f2 → specSplitAux f1 l = specSplitAux f2 l := by
  intro f1
  induction f1 with
  | zero => intro f2 l h1 _; omega
  | succ f ih =>
    intro f2 l h1 h2
    cases f2 with
    | zero => omega
    | succ g =>
      cases l with
      | nil => rfl
      | cons c rest =>
        rw [List.length_cons] at h1 h2
        by_cases hc : (pyIsSpace c &&
            decide (2 ≤ ((c :: rest).takeWhile pyIsSpace).count '\n')) = true
        · simp only [specSplitAux, if_pos hc]
          have hd : ((c :: rest).dropWhile pyIsSpace).length ≤ rest.length := by
            have hcs : pyIsSpace c = true := by
              rcases Bool.and_eq_true .. ▸ hc with ⟨h', -⟩
              exact h'
            rw [List.dropWhile_cons, if_pos hcs]
            exact List.Sublist.length_le (List.dropWhile_sublist _)
          rw [ih g _ (by omega) (by omega)]
        · simp only [specSplitAux, if_neg hc]
          rw [ih g rest (by omega) (by omega)]

theorem reSplitBlank_cons_sep (rest : List Char) (j : Nat)
    (h : lastNl (rest.takeWhile pyIsSpace) = some j) :
    reSplitBlank ('\n' :: rest) = [] :: reSplitBlank (rest.drop (j + 1)) := by
  show reSplitAux (('\n' :: rest).length + 1) ('\n' :: rest) = _
  rw [List.length_cons]
  simp only [reSplitAux, eq_self_iff_true, if_true, h]
  congr 1
  apply reSplitAux_fuel_irrel
  · rw [List.length_drop]; omega
  · omega

theorem reSplitBlank_cons_nosep (c : Char) (rest : List Char)
    (h : c = '\n' → lastNl (rest.takeWhile pyIsSpace) = none) :
    reSplitBlank (c :: rest) = consPiece c (reSplitBlank rest) := by
  show reSplitAux ((c :: rest).length + 1) (c :: rest) = _
  rw [List.length_cons]
  by_cases hc : c = '\n'
  · subst hc
    simp only [reSplitAux, eq_self_iff_true, if_true, h rfl]
    rfl
  · simp only [reSplitAux, if_neg hc]
    rfl

theorem specSplitBlank_cons_sep (c : Char) (rest : List Char)
    (h : (pyIsSpace c && decide (2 ≤ ((c :: rest).takeWhile pyIsSpace).count '\n')) = true) :
    specSplitBlank (c :: rest) = [] :: specSplitBlank ((c :: rest).dropWhile pyIsSpace) := by
  show specSplitAux ((c :: rest).length + 1) (c :: rest) = _
  rw [List.length_cons]
  simp only [specSplitAux, h, eq_self_iff_true, if_true]
  congr 1
  apply specSplitAux_fuel_irrel
  · have hcs : pyIsSpace c = true := by
      rcases Bool.and_eq_true .. ▸ h with ⟨h', -⟩
      exact h'
    rw [List.dropWhile_cons, if_pos hcs]
    have := List.Sublist.length_le (List.dropWhile_sublist (l := rest) (p := pyIsSpace))
    omega
  · omega

theorem specSplitBlank_cons_nosep (c : Char) (rest : List Char)
    (h : (pyIsSpace c && decide (2 ≤ ((c :: rest).takeWhile pyIsSpace).count '\n')) = false) :
    specSplitBlank (c :: rest) = consPiece c (specSplitBlank rest) := by
  show specSplitAux ((c :: rest).length + 1) (c :: rest) = _
  rw [List.length_cons]
  simp only [specSplitAux, h, Bool.false_eq_true, if_false]
  rfl

theorem prependPiece_ne (a : List Char) (ps : List (List Char)) (h : ps ≠ []) :
    a = [] → prependPiece a ps = ps := by
  intro ha
  subst ha
  cases ps with
  | nil => cases h rfl
  | cons x t => simp [prependPiece]

theorem prependPiece_consPiece (a : List Char) (c : Char) (ps : List (List Char)) :
    prependPiece a (consPiece c ps) = prependPiece (a ++ [c]) ps := by
  cases ps with
  | nil => simp [prependPiece, consPiece]
  | cons x t => simp [prependPiece, consPiece]

theorem prependPiece_compose (a w : List Char) (ps : List (List Char)) :
    prependPiece a (prependPiece w ps) = prependPiece (a ++ w) ps := by
  cases ps with
  | nil => simp [prependPiece]
  | cons x t => simp [prependPiece]

theorem prependPiece_cons (y : List Char) (x : List Char) (t : List (List Char)) :
    prependPiece y (x :: t) = (y ++ x) :: t := rfl

theorem stripFilter_cons (x : List Char) (t : List (List Char)) :
    stripFilter (x :: t) =
      if (pyStrip x).isEmpty then stripFilter t else pyStrip x :: stripFilter t := by
  unfold stripFilter
  rw [List.map_cons, List.filter_cons]
  by_cases hx : (pyStrip x).isEmpty
  · rw [if_pos hx, if_neg (by rw [hx]; simp)]
  · rw [if_neg hx, if_pos (by rw [Bool.not_eq_true] at hx; rw [hx]; simp)]

theorem dropWhile_append_all {p : Char → Bool} (w x : List Char) (h : ∀ c ∈ w, p c = true) :
    (w ++ x).dropWhile p = x.dropWhile p := by
  induction w with
  | nil => rfl
  | cons c cs ih =>
    rw [List.cons_append, List.dropWhile_cons, if_pos (h c (List.mem_cons_self _ _))]
    exact ih (fun y hy => h y (List.mem_cons_of_mem _ hy))

theorem pyStrip_ws_lead (w x : List Char) (h : ∀ c ∈ w, pyIsSpace c = true) :
    pyStrip (w ++ x) = pyStrip x := by
  show pyRstrip (pyLstrip (w ++ x)) = pyRstrip (pyLstrip x)
  have : pyLstrip (w ++ x) = pyLstrip x := dropWhile_append_all w x h
  rw [this]

theorem pyRstrip_append_ws (y w : List Char) (h : ∀ c ∈ w, pyIsSpace c = true) :
    pyRstrip (y ++ w) = pyRstrip y := by
  unfold pyRstrip
  rw [List.reverse_append]
  rw [dropWhile_append_all _ _ (fun c hc => h c (List.mem_reverse.mp hc))]

theorem pyStrip_append_ws (q w : List Char) (h : ∀ c ∈ w, pyIsSpace c = true) :
    pyStrip (q ++ w) = pyStrip q := by
  show pyRstrip (pyLstrip (q ++ w)) = pyRstrip (pyLstrip q)
  have hlq : pyLstrip (q ++ w) = if (pyLstrip q).isEmpty then pyLstrip w else pyLstrip q ++ w := by
    unfold pyLstrip
    rw [List.dropWhile_append]
  rw [hlq]
  by_cases hq : (pyLstrip q).isEmpty
  · rw [if_pos hq]
    have hw : pyLstrip w = [] := by
      unfold pyLstrip
      rw [List.dropWhile_eq_nil_iff]
      exact fun c hc => h c hc
    have hq2 : pyLstrip q = [] := by
      rwa [List.isEmpty_iff] at hq
    rw [hw, hq2]
  · rw [if_neg hq]
    exact pyRstrip_append_ws _ _ h

theorem lastNl_lt (l : List Char) : ∀ j, lastNl l = some j → j < l.length := by
  induction l with
  | nil => intro j h; cases h
  | cons c rest ih =>
    intro j h
    rw [lastNl] at h
    cases hr : lastNl rest with
    | some j' =>
      rw [hr] at h
      obtain rfl := Option.some_inj.mp h
      have := ih j' hr
      rw [List.length_cons]
      omega
    | none =>
      rw [hr] at h
      by_cases hc : c = '\n'
      · rw [if_pos hc] at h
        obtain rfl := Option.some_inj.mp h
        simp
      · rw [if_neg hc] at h
        cases h

theorem lastNl_none_iff (l : List Char) : lastNl l = none ↔ '\n' ∉ l := by
  induction l with
  | nil => simp [lastNl]
  | cons c rest ih =>
    rw [lastNl]
    cases hr : lastNl rest with
    | some j' =>
      simp only []
      constructor
      · intro h; cases h
      · intro h
        exfalso
        exact h (List.mem_cons_of_mem _ (by
          by_contra hmem
          rw [← ih] at hmem
          · rw [hmem] at hr; cases hr))
    | none =>
      simp only []
      by_cases hc : c = '\n'
      · rw [if_pos hc]
        subst hc
        constructor
        · intro h; cases h
        · intro h; exact absurd (List.mem_cons_self _ _) h
      · rw [if_neg hc]
        constructor
        · intro _
          intro hmem
          rcases List.mem_cons.mp hmem with heq | hmem2
          · exact hc heq.symm
          · exact (ih.mp hr) hmem2
        · intro _; rfl

theorem lastNl_drop (l : List Char) : ∀ j, lastNl l = some j → '\n' ∉ l.drop (j + 1) := by
  induction l with
  | nil => intro j h; cases h
  | cons c rest ih =>
    intro j h
    rw [lastNl] at h
    cases hr : lastNl rest with
    | some j' =>
      rw [hr] at h
      obtain rfl := Option.some_inj.mp h
      rw [List.drop_succ_cons]
      exact ih j' hr
    | none =>
      rw [hr] at h
      by_cases hc : c = '\n'
      · rw [if_pos hc] at h
        obtain rfl := Option.some_inj.mp h
        rw [List.drop_succ_cons, List.drop_zero]
        exact (lastNl_none_iff rest).mp hr
      · rw [if_neg hc] at h
        cases h

theorem lastNl_some_of_mem (l : List Char) (h : '\n' ∈ l) : ∃ j, lastNl l = some j := by
  cases hln : lastNl l with
  | none => exact absurd h ((lastNl_none_iff l).mp hln)
  | some j => exact ⟨j, rfl⟩

theorem dropWhile_head_false {p : Char → Bool} : ∀ (l : List Char) (c : Char) (t : List Char),
    l.dropWhile p = c :: t → p c = false := by
  intro l
  induction l with
  | nil => intro c t h; cases h
  | cons x xs ih =>
    intro c t h
    rw [List.dropWhile_cons] at h
    by_cases hx : p x
    · rw [if_pos hx] at h
      exact ih c t h
    · rw [if_neg hx] at h
      injection h with h1 h2
      subst h1
      simpa using hx

theorem reSplitBlank_ne_nil (l : List Char) : reSplitBlank l ≠ [] :=
  reSplitAux_ne_nil _ _

theorem specSplitBlank_ne_nil (l : List Char) : specSplitBlank l ≠ [] :=
  specSplitAux_ne_nil _ _

theorem reSplitBlank_ws_lead : ∀ (w l : List Char),
    (∀ c ∈ w, pyIsSpace c = true ∧ c ≠ '\n') →
    reSplitBlank (w ++ l) = prependPiece w (reSplitBlank l) := by
  intro w
  induction w with
  | nil =>
    intro l _
    rw [List.nil_append, prependPiece_ne [] (reSplitBlank l) (reSplitBlank_ne_nil l) rfl]
  | cons d w' ih =>
    intro l hw
    have hd : d ≠ '\n' := (hw d (List.mem_cons_self _ _)).2
    rw [List.cons_append, reSplitBlank_cons_nosep d _ (fun hdn => absurd hdn hd)]
    rw [ih l (fun c hc => hw c (List.mem_cons_of_mem _ hc))]
    cases hps : reSplitBlank l with
    | nil => exact absurd hps (reSplitBlank_ne_nil l)
    | cons x t => simp [prependPiece, consPiece]

theorem stripFilter_prep_nil (a b : List Char)
    (hab : ∀ x, pyStrip (a ++ x) = pyStrip (b ++ x)) :
    stripFilter (prependPiece a (reSplitBlank [])) =
      stripFilter (prependPiece b (specSplitBlank [])) := by
  show stripFilter [a ++ []] = stripFilter [b ++ []]
  rw [stripFilter_cons, stripFilter_cons, hab []]

theorem stripFilter_re_spec : ∀ (N : Nat) (l : List Char), l.length ≤ N →
    ∀ (a b : List Char), (∀ x, pyStrip (a ++ x) = pyStrip (b ++ x)) →
    stripFilter (prependPiece a (reSplitBlank l)) =
      stripFilter (prependPiece b (specSplitBlank l)) := by
  intro N
  induction N with
  | zero =>
    intro l hl a b hab
    have hl0 : l.length = 0 := by omega
    obtain rfl := List.length_eq_zero.mp hl0
    exact stripFilter_prep_nil a b hab
  | succ N ih =>
    intro l hl a b hab
    cases l with
    | nil => exact stripFilter_prep_nil a b hab
    | cons c rest =>
      rw [List.length_cons] at hl
      by_cases hsep : (pyIsSpace c &&
          decide (2 ≤ ((c :: rest).takeWhile pyIsSpace).count '\n')) = true
      · have hsep2 := hsep
        rw [Bool.and_eq_true] at hsep2
        obtain ⟨hws, hcnt'⟩ := hsep2
        rw [specSplitBlank_cons_sep c rest hsep]
        have hsplitR : (c :: rest).takeWhile pyIsSpace ++ (c :: rest).dropWhile pyIsSpace
            = c :: rest := List.takeWhile_append_dropWhile _ _
        have hRws : ∀ x ∈ (c :: rest).takeWhile pyIsSpace, pyIsSpace x = true :=
          fun x hx => List.mem_takeWhile_imp hx
        have hsplitW : ((c :: rest).takeWhile pyIsSpace).takeWhile (fun x => x ≠ '\n') ++
            ((c :: rest).takeWhile pyIsSpace).dropWhile (fun x => x ≠ '\n') =
            (c :: rest).takeWhile pyIsSpace := List.takeWhile_append_dropWhile _ _
        have hmemR : '\n' ∈ (c :: rest).takeWhile pyIsSpace := by
          apply List.count_pos_iff.mp
          have := of_decide_eq_true hcnt'
          omega
        have hdwne : ((c :: rest).takeWhile pyIsSpace).dropWhile (fun x => x ≠ '\n') ≠ [] := by
          intro hnil
          rw [hnil, List.append_nil] at hsplitW
          rw [← hsplitW] at hmemR
          have := List.mem_takeWhile_imp hmemR
          simp at this
        obtain ⟨d0, m, hdwc⟩ := List.exists_cons_of_ne_nil hdwne
        have hd0 : d0 = '\n' := by
          have := dropWhile_head_false _ d0 m hdwc
          simpa using this
        subst hd0
        have hform : c :: rest =
            ((c :: rest).takeWhile pyIsSpace).takeWhile (fun x => x ≠ '\n') ++
              '\n' :: (m ++ (c :: rest).dropWhile pyIsSpace) := by
          conv_lhs => rw [← hsplitR]
          conv_lhs => rw [← hsplitW, hdwc]
          simp [List.append_assoc]
        have hw1ws : ∀ x ∈ ((c :: rest).takeWhile pyIsSpace).takeWhile (fun x => x ≠ '\n'),
            pyIsSpace x = true ∧ x ≠ '\n' := by
          intro x hx
          constructor
          · apply hRws
            rw [← hsplitW]
            exact List.mem_append_left _ hx
          · have := List.mem_takeWhile_imp hx
            simpa using this
        have hmsubR : ∀ x ∈ m, x ∈ (c :: rest).takeWhile pyIsSpace := by
          intro x hx
          rw [← hsplitW, hdwc]
          exact List.mem_append_right _ (List.mem_cons_of_mem _ hx)
        have hmws : ∀ x ∈ m, pyIsSpace x = true := fun x hx => hRws x (hmsubR x hx)
        have hw1cnt :
            ((((c :: rest).takeWhile pyIsSpace).takeWhile (fun x => x ≠ '\n')).count '\n') = 0 := by
          rw [List.count_eq_zero]
          intro hmem
          have := List.mem_takeWhile_imp hmem
          simp at this
        have hmnl : '\n' ∈ m := by
          apply List.count_pos_iff.mp
          have hcR : ((c :: rest).takeWhile pyIsSpace).count '\n' =
              (((c :: rest).takeWhile pyIsSpace).takeWhile (fun x => x ≠ '\n')).count '\n' +
                (('\n' :: m).count '\n') := by
            conv_lhs => rw [← hsplitW, hdwc]
            rw [List.count_append]
          rw [hw1cnt, List.count_cons_self] at hcR
          have := of_decide_eq_true hcnt'
          omega
        obtain ⟨j, hj⟩ := lastNl_some_of_mem m hmnl
        have hTW : (m ++ (c :: rest).dropWhile pyIsSpace).takeWhile pyIsSpace = m := by
          cases hre : (c :: rest).dropWhile pyIsSpace with
          | nil => rw [List.append_nil]; exact List.takeWhile_eq_self_iff.mpr hmws
          | cons d t' =>
            exact takeWhile_all_append d t' hmws (dropWhile_head_false _ d t' hre)
        have hcode : reSplitBlank (c :: rest) =
            prependPiece (((c :: rest).takeWhile pyIsSpace).takeWhile (fun x => x ≠ '\n'))
              ([] :: reSplitBlank ((m.drop (j + 1)) ++ (c :: rest).dropWhile pyIsSpace)) := by
          conv_lhs => rw [hform]
          rw [reSplitBlank_ws_lead _ _ hw1ws]
          congr 1
          rw [reSplitBlank_cons_sep _ j (by rw [hTW]; exact hj)]
          congr 2
          rw [List.drop_append_of_le_length (Nat.succ_le_of_lt (lastNl_lt m j hj))]
        rw [hcode, prependPiece_compose]
        rw [prependPiece_cons, prependPiece_cons]
        rw [stripFilter_cons, stripFilter_cons]
        have hhead : pyStrip (a ++ ((c :: rest).takeWhile pyIsSpace).takeWhile
            (fun x => x ≠ '\n') ++ []) = pyStrip (b ++ []) := by
          rw [List.append_nil, List.append_nil]
          rw [hab (((c :: rest).takeWhile pyIsSpace).takeWhile (fun x => x ≠ '\n'))]
          exact pyStrip_append_ws b _ (fun x hx => (hw1ws x hx).1)
        rw [hhead]
        have hmtail : ∀ x ∈ m.drop (j + 1), pyIsSpace x = true ∧ x ≠ '\n' := by
          intro x hx
          refine ⟨hmws x (List.mem_of_mem_drop hx), ?_⟩
          intro hxeq
          subst hxeq
          exact lastNl_drop m j hj hx
        have htail :
            stripFilter (reSplitBlank ((m.drop (j + 1)) ++ (c :: rest).dropWhile pyIsSpace)) =
            stripFilter (specSplitBlank ((c :: rest).dropWhile pyIsSpace)) := by
          rw [reSplitBlank_ws_lead _ _ hmtail]
          have hlen' : ((c :: rest).dropWhile pyIsSpace).length ≤ N := by
            rw [List.dropWhile_cons, if_pos hws]
            have := List.Sublist.length_le (List.dropWhile_sublist (p := pyIsSpace) (l := rest))
            omega
          have happ := ih ((c :: rest).dropWhile pyIsSpace) hlen' (m.drop (j + 1)) []
            (fun x => by
              rw [List.nil_append]
              exact pyStrip_ws_lead _ x (fun y hy => (hmtail y hy).1))
          rw [prependPiece_ne [] _ (specSplitBlank_ne_nil ((c :: rest).dropWhile pyIsSpace)) rfl]
            at happ
          exact happ
        rw [htail]
      · have hsep' : (pyIsSpace c &&
            decide (2 ≤ ((c :: rest).takeWhile pyIsSpace).count '\n')) = false := by
          rwa [Bool.not_eq_true] at hsep
        rw [specSplitBlank_cons_nosep c rest hsep']
        have hcode : reSplitBlank (c :: rest) = consPiece c (reSplitBlank rest) := by
          apply reSplitBlank_cons_nosep
          intro hcn
          subst hcn
          rw [lastNl_none_iff]
          intro hmem
          apply hsep
          have h1 : pyIsSpace '\n' = true := by decide
          have htw : (('\n' :: rest).takeWhile pyIsSpace) = '\n' :: rest.takeWhile pyIsSpace := by
            rw [List.takeWhile_cons, if_pos h1]
          rw [h1, htw, Bool.true_and, decide_eq_true_eq, List.count_cons_self]
          have := List.count_pos_iff.mpr hmem
          omega
        rw [hcode, prependPiece_consPiece, prependPiece_consPiece]
        apply ih rest (by omega)
        intro x
        have e1 : a ++ [c] ++ x = a ++ ([c] ++ x) := by rw [List.append_assoc]
        have e2 : b ++ [c] ++ x = b ++ ([c] ++ x) := by rw [List.append_assoc]
        rw [e1, e2]
        exact hab ([c] ++ x)

theorem stripFilter_re_eq_spec (l : List Char) :
    stripFilter (reSplitBlank l) = stripFilter (specSplitBlank l) := by
  have h := stripFilter_re_spec l.length l le_rfl [] [] (fun x => rfl)
  rw [prependPiece_ne [] _ (reSplitBlank_ne_nil l) rfl,
      prependPiece_ne [] _ (specSplitBlank_ne_nil l) rfl] at h
  exact h

theorem filterMap_rawText (l : List (List Char)) (md : List (String × String)) (ct : String) :
    (l.filterMap (fun para => if (pyStrip para).isEmpty then none
        else some (Chunk.txt ⟨pyStrip para⟩ md ct))).map Chunk.rawText = stripFilter l := by
  induction l with
  | nil => rfl
  | cons p t ih =>
    rw [List.filterMap_cons, stripFilter_cons]
    by_cases hp : (pyStrip p).isEmpty
    · rw [if_pos hp, if_pos hp, ih]
    · rw [if_neg hp, if_neg hp, List.map_cons, ih]
      rfl

/-- C7: paragraph chunking is exactly "split on every maximal whitespace run
containing at least one blank line (two newlines), trim each piece, drop the
empty ones, keep the order" (`specSplitBlank` is written from the claim's
words; the equality holds for every input although the regex separator
`\n\s*\n` consumes only the core of the whitespace run — the surrounding
whitespace is removed by trimming).  All produced chunks are paragraph chunks
carrying the supplied metadata, and on `"A\n\nB\n\n\nC"` the result is exactly
the three chunks `A`, `B`, `C`. -/
theorem C7_paragraph_chunking :
    (∀ (text : String) (md : List (String × String)),
      (chunk_by_paragraph text md).map Chunk.rawText = stripFilter (specSplitBlank text.data) ∧
      ∀ c ∈ chunk_by_paragraph text md, c.isQaPair = false ∧
        ∃ t, c = Chunk.txt t md "paragraph") ∧
    chunk_by_paragraph "A\n\nB\n\n\nC" [("source", "d.md")] =
      [Chunk.txt "A" [("source", "d.md")] "paragraph",
       Chunk.txt "B" [("source", "d.md")] "paragraph",
       Chunk.txt "C" [("source", "d.md")] "paragraph"] := by
  constructor
  · intro text md
    constructor
    · rw [← stripFilter_re_eq_spec]
      exact filterMap_rawText (reSplitBlank text.data) md "paragraph"
    · intro c hc
      obtain ⟨p, hne, hcp⟩ := mem_chunk_by_paragraph hc
      subst hcp
      exact ⟨rfl, _, rfl⟩
  · decide
